import Mathlib

/-!
Verification of the pagination/layout engine of `server.js`.

This file is a shallow embedding, in Lean 4, of the pure computational core of
the `n8n-ffmpeg-pdfme` rendering service (`src/server.js`):

* `normalizeTextSpacing` (server.js:201-211) — whitespace/punctuation cleanup;
* `calculateTextCapacityWithRendering` (server.js:226-332) — the word-wrap
  based character-capacity computation (the pdf-lib width measurement
  `font.widthOfTextAtSize` is modelled by an explicit per-character width
  function `cw : Char → ℚ`, which is faithful to pdf-lib's kerning-free
  sum-of-advance-widths measurement);
* `calculateTextCapacityEstimate` (server.js:342-365) — the fallback formula;
* `splitTextIntelligently` (server.js:374-448) — boundary-preferring text
  splitting, with an explicit fuel argument standing for the number of
  executed `while` iterations (`none` = the loop did not finish in `fuel`
  iterations);
* the multi-page job construction of the `/api/render` handler
  (server.js:797-833).

Modelling conventions:

* JS strings are `String`/`List Char`; the JS whitespace class `\s` and
  `String.prototype.trim` are modelled on the ASCII whitespace characters
  (space, tab, LF, CR, VT, FF), which covers every character these algorithms
  ever produce or test;
* JS numbers are exact rationals `ℚ`; `Math.floor` is `Int.floor`. The
  comparisons `x > cap*0.5` and `x > cap*0.6` on integer `x`, `cap` are
  modelled as `2*x > cap` and `5*x > 3*cap` (`0.5` is exact in binary, and
  the `0.6` comparison agrees with the double arithmetic at integer points);
  `x > cap*0.7` is NOT faithfully captured by `10*x > 7*cap` (the double
  product `cap*0.7` falls below the exact value at many capacities, e.g.
  `90*0.7 = 62.99999999999999`), so it is modelled through the exact
  rounding of the double product: see `rn53` and `wordThresholdHit`;
* character capacities are natural numbers (both capacity functions of the
  source return their accumulated non-negative character counts).
-/

namespace Pdfme

/-- ASCII JS whitespace (`\s`, `trim`): space, tab, LF, VT, FF, CR. -/
def jsWs (c : Char) : Bool :=
  c = ' ' || c = '\t' || c = '\n' || c = '\r' || c = Char.ofNat 11 || c = Char.ofNat 12

/-- JS `String.prototype.trim` on a character list. -/
def jsTrim (l : List Char) : List Char :=
  (l.dropWhile jsWs).rdropWhile jsWs

/-- Whether `pat` occurs in `t` starting at index `i`. -/
def occursAt (pat t : List Char) (i : ℕ) : Bool :=
  pat.isPrefixOf (t.drop i)

/-- JS `t.lastIndexOf(pat, pos)`: the largest index `i ≤ pos` at which `pat`
occurs in `t` (JS returns `-1`, modelled as `none`, when there is none). -/
def lastIndexOfLe (pat t : List Char) : ℕ → Option ℕ
  | 0 => if occursAt pat t 0 then some 0 else none
  | p + 1 => if occursAt pat t (p + 1) then some (p + 1) else lastIndexOfLe pat t p

/-- JS `Math.max` on `-1`-coded occurrence indices. -/
def optMax : Option ℕ → Option ℕ → Option ℕ
  | none, b => b
  | some x, none => some x
  | some x, some y => some (max x y)

/-- The sentence-break candidate of `splitTextIntelligently` (server.js:409-413):
`Math.max` of the last occurrences of `". "`, `"! "`, `"? "` at or before `cap`. -/
def sentenceBreakOf (t : List Char) (cap : ℕ) : Option ℕ :=
  optMax (optMax (lastIndexOfLe ['.', ' '] t cap) (lastIndexOfLe ['!', ' '] t cap))
    (lastIndexOfLe ['?', ' '] t cap)

/-- Bit length of a natural number, by repeated halving; `bitLenGo fuel n`
peels one bit per step, and with `fuel = n` the fuel never runs out before
the number does, since the bit length of `n` is at most `n`. -/
def bitLenGo : ℕ → ℕ → ℕ
  | 0, _ => 0
  | fuel + 1, n => if n = 0 then 0 else bitLenGo fuel (n / 2) + 1

/-- The number of binary digits of `n` (0 for 0). -/
def bitLen (n : ℕ) : ℕ := bitLenGo n n

/-- Round-to-nearest, ties-to-even, of the dyadic rational `n / 2^k` to a
53-bit significand, returned as the rounded numerator at the same scale:
for `n` in the normal range of IEEE-754 doubles (the case for every value
arising here), the double nearest to `n / 2^k` is `rn53 n / 2^k`. -/
def rn53 (n : ℕ) : ℕ :=
  if bitLen n ≤ 53 then n
  else
    let d := bitLen n - 53
    let q := n / 2 ^ d
    let r := n % 2 ^ d
    let half := 2 ^ (d - 1)
    (if half < r then q + 1
     else if r < half then q
     else if q % 2 = 0 then q else q + 1) * 2 ^ d

/-- The scaled significand of the IEEE-754 double literal `0.7`: the double
written `0.7` has exact value `num07 / 2^52`, slightly below `7/10` (the
decimal `0.7` is not a binary fraction). -/
def num07 : ℕ := 3152519739159347

/-- The JS test `wordBreak > currentCapacity * 0.7` (server.js:426) in
IEEE-754 double arithmetic: the integer `cap` times the double `0.7`, the
product rounded to the nearest double, compared exactly against the integer
`w`; as a comparison of numerators scaled by `2^52` this reads
`rn53 (cap * num07) < 2^52 * w`. The rounding matters: at `cap = 90` the
double product is `62.99999999999999 < 63`, so `w = 63` passes this test
although `10 * w > 7 * cap` fails. -/
def wordThresholdHit (w cap : ℕ) : Bool :=
  rn53 (cap * num07) < 2 ^ 52 * w

/-- Word-break fallback of the break-point selection (server.js:421-429):
last space at or before `cap`, accepted if beyond the double product
`cap * 0.7`, else a hard break at `cap`. -/
def breakPointWord (t : List Char) (cap : ℕ) : ℕ :=
  match lastIndexOfLe [' '] t cap with
  | some w => if wordThresholdHit w cap then w + 1 else cap
  | none => cap

/-- Sentence-break stage of the break-point selection (server.js:408-419):
the sentence break is accepted if `> cap * 0.6`. -/
def breakPointSentence (t : List Char) (cap : ℕ) : ℕ :=
  match sentenceBreakOf t cap with
  | some s => if 3 * cap < 5 * s then s + 2 else breakPointWord t cap
  | none => breakPointWord t cap

/-- Break-point selection of `splitTextIntelligently` (server.js:397-431):
paragraph break (last `"\n\n"` at or before `cap`, accepted if `> cap * 0.5`),
else sentence break, else word break, else hard break at `cap`. -/
def breakPointOf (t : List Char) (cap : ℕ) : ℕ :=
  match lastIndexOfLe ['\n', '\n'] t cap with
  | some p => if cap < 2 * p then p + 2 else breakPointSentence t cap
  | none => breakPointSentence t cap

/-- The `while (remainingText.length > 0)` loop of `splitTextIntelligently`
(server.js:388-443). `fuel` bounds the number of iterations; `none` means the
loop has not terminated within `fuel` iterations. -/
def splitGo : ℕ → List Char → ℕ → ℕ → Option (List (List Char))
  | 0, _, _, _ => none
  | fuel + 1, t, cap, contCap =>
    if t.length = 0 then some []
    else if t.length ≤ cap then some [t]
    else
      let bp := breakPointOf t cap
      let chunk := jsTrim (t.take bp)
      let rest := jsTrim (t.drop bp)
      (splitGo fuel rest contCap contCap).map (chunk :: ·)

/-- The function `splitTextIntelligently(text, firstPageCapacity, continuationPageCapacity)`
(server.js:374-448). An empty text returns `[""]` (the `!text` guard); a text
that fits the first page is returned unsplit; otherwise the iterated
boundary-preferring split runs with the given fuel. -/
def splitTextIntelligently (fuel : ℕ) (text : String) (firstCap contCap : ℕ) :
    Option (List String) :=
  if text = "" then some [""]
  else if text.length ≤ firstCap then some [text]
  else (splitGo fuel text.data firstCap contCap).map (·.map fun l => ⟨l⟩)

/-- The split loop terminates on `(text, c1, c2)` for some amount of fuel. -/
def splitTerminates (text : String) (firstCap contCap : ℕ) : Prop :=
  ∃ fuel, (splitTextIntelligently fuel text firstCap contCap).isSome

theorem split_sample_leading_ws : splitTextIntelligently 5 " abc" 1 10 = some ["", "abc"] := by decide
theorem split_sample_zero_first_cap : splitTextIntelligently 5 "ab" 0 10 = some ["", "ab"] := by decide
theorem split_sample_word_breaks : splitTextIntelligently 9 "ab cd" 1 3 = some ["a", "b c", "d"] := by decide

/-! ## Basic facts about the break-point search -/

theorem lastIndexOfLe_le {pat t : List Char} {pos i : ℕ}
    (h : lastIndexOfLe pat t pos = some i) : i ≤ pos := by
  induction pos with
  | zero =>
    unfold lastIndexOfLe at h
    split at h <;> simp_all
  | succ p ih =>
    unfold lastIndexOfLe at h
    split at h
    · simp_all
    · exact (ih h).trans (Nat.le_succ p)

theorem lastIndexOfLe_occurs {pat t : List Char} {pos i : ℕ}
    (h : lastIndexOfLe pat t pos = some i) : occursAt pat t i = true := by
  induction pos with
  | zero =>
    unfold lastIndexOfLe at h
    split at h <;> simp_all
  | succ p ih =>
    unfold lastIndexOfLe at h
    split at h
    · rename_i hp
      obtain rfl : p + 1 = i := by simpa using h
      exact hp
    · exact ih h

theorem lastIndexOfLe_max {pat t : List Char} {pos i j : ℕ}
    (h : lastIndexOfLe pat t pos = some i) (hj : j ≤ pos)
    (hocc : occursAt pat t j = true) : j ≤ i := by
  induction pos with
  | zero =>
    interval_cases j
    unfold lastIndexOfLe at h
    split at h <;> simp_all
  | succ p ih =>
    unfold lastIndexOfLe at h
    split at h
    · obtain rfl : p + 1 = i := by simpa using h
      exact hj
    · rename_i hp
      rcases Nat.lt_or_ge j (p + 1) with hlt | hge
      · exact ih h (Nat.lt_succ_iff.mp hlt)
      · obtain rfl : j = p + 1 := le_antisymm hj hge
        simp_all

theorem lastIndexOfLe_none {pat t : List Char} {pos j : ℕ}
    (h : lastIndexOfLe pat t pos = none) (hj : j ≤ pos) :
    occursAt pat t j = false := by
  induction pos with
  | zero =>
    interval_cases j
    unfold lastIndexOfLe at h
    split at h <;> simp_all
  | succ p ih =>
    unfold lastIndexOfLe at h
    split at h
    · simp_all
    · rename_i hp
      rcases Nat.lt_or_ge j (p + 1) with hlt | hge
      · exact ih h (Nat.lt_succ_iff.mp hlt)
      · obtain rfl : j = p + 1 := le_antisymm hj hge
        simpa using hp

/-- If `pat` occurs somewhere at or before `pos`, the search succeeds. -/
theorem lastIndexOfLe_isSome {pat t : List Char} {pos j : ℕ}
    (hj : j ≤ pos) (hocc : occursAt pat t j = true) :
    (lastIndexOfLe pat t pos).isSome := by
  cases h : lastIndexOfLe pat t pos with
  | some i => simp
  | none => simp [lastIndexOfLe_none h hj] at hocc

theorem optMax_eq_some {a b : Option ℕ} {s : ℕ} (h : optMax a b = some s) :
    a = some s ∨ b = some s := by
  cases a with
  | none => right; simpa [optMax] using h
  | some x => cases b with
    | none => left; simpa [optMax] using h
    | some y =>
      obtain rfl : max x y = s := by simpa [optMax] using h
      rcases max_choice x y with h' | h'
      · left; rw [h']
      · right; rw [h']

/-- Every candidate returned by `sentenceBreakOf` is at most `cap`. -/
theorem sentenceBreakOf_le {t : List Char} {cap s : ℕ}
    (h : sentenceBreakOf t cap = some s) : s ≤ cap := by
  unfold sentenceBreakOf at h
  rcases optMax_eq_some h with h' | h'
  · rcases optMax_eq_some h' with h'' | h''
    · exact lastIndexOfLe_le h''
    · exact lastIndexOfLe_le h''
  · exact lastIndexOfLe_le h'

/-- With capacity 0 every boundary test fails and the hard break at the
capacity is chosen: `breakPointOf t 0 = 0`. -/
theorem breakPointWord_zero (t : List Char) : breakPointWord t 0 = 0 := by
  unfold breakPointWord
  cases hw : lastIndexOfLe [' '] t 0 with
  | some w => obtain rfl : w = 0 := Nat.le_zero.mp (lastIndexOfLe_le hw); decide
  | none => simp

theorem breakPointSentence_zero (t : List Char) : breakPointSentence t 0 = 0 := by
  unfold breakPointSentence
  cases hs : sentenceBreakOf t 0 with
  | some s =>
    obtain rfl : s = 0 := Nat.le_zero.mp (sentenceBreakOf_le hs)
    simpa using breakPointWord_zero t
  | none => simpa using breakPointWord_zero t

theorem breakPointOf_zero (t : List Char) : breakPointOf t 0 = 0 := by
  unfold breakPointOf
  cases hp : lastIndexOfLe ['\n', '\n'] t 0 with
  | some p =>
    obtain rfl : p = 0 := Nat.le_zero.mp (lastIndexOfLe_le hp)
    simpa using breakPointSentence_zero t
  | none => simpa using breakPointSentence_zero t

theorem breakPointWord_pos {cap : ℕ} (t : List Char) (hcap : 1 ≤ cap) :
    1 ≤ breakPointWord t cap := by
  unfold breakPointWord
  cases lastIndexOfLe [' '] t cap with
  | none => simpa using hcap
  | some w => simp; split <;> omega

theorem breakPointSentence_pos {cap : ℕ} (t : List Char) (hcap : 1 ≤ cap) :
    1 ≤ breakPointSentence t cap := by
  unfold breakPointSentence
  cases sentenceBreakOf t cap with
  | none => simpa using breakPointWord_pos t hcap
  | some s =>
    simp; split
    · omega
    · exact breakPointWord_pos t hcap

/-- With a positive capacity the chosen break point is positive. -/
theorem breakPointOf_pos {cap : ℕ} (t : List Char) (hcap : 1 ≤ cap) :
    1 ≤ breakPointOf t cap := by
  unfold breakPointOf
  cases lastIndexOfLe ['\n', '\n'] t cap with
  | none => simpa using breakPointSentence_pos t hcap
  | some p =>
    simp; split
    · omega
    · exact breakPointSentence_pos t hcap

/-! ## Facts about `jsTrim` -/

theorem jsTrim_length_le (l : List Char) : (jsTrim l).length ≤ l.length :=
  le_trans ( List.rdropWhile_prefix jsWs (l.dropWhile jsWs)).length_le
    (List.dropWhile_suffix jsWs).length_le

/-- The first character of a (non-empty) trimmed list is not whitespace. -/
def headNotWs (l : List Char) : Bool :=
  match l.head? with
  | some c => !jsWs c
  | none => true

theorem headNotWs_dropWhile (l : List Char) : headNotWs (l.dropWhile jsWs) = true := by
  induction l with
  | nil => rfl
  | cons c rest ih =>
    by_cases h : jsWs c
    · simpa [List.dropWhile_cons, h] using ih
    · simp [List.dropWhile_cons, h, headNotWs]

theorem headNotWs_of_isPre {l p : List Char} (hp : p <+: l)
    (hl : headNotWs l = true) : headNotWs p = true := by
  cases p with
  | nil => rfl
  | cons c rest =>
    cases l with
    | nil => exact absurd hp.length_le (by simp)
    | cons d rest' =>
      obtain ⟨t, ht⟩ := hp
      obtain rfl : c = d := by
        have := congrArg List.head? ht
        simpa using this
      simpa [headNotWs] using hl

theorem headNotWs_jsTrim (l : List Char) : headNotWs (jsTrim l) = true :=
  headNotWs_of_isPre ( List.rdropWhile_prefix jsWs (l.dropWhile jsWs))
    (headNotWs_dropWhile l)

theorem jsTrim_eq_self {l : List Char} (h : headNotWs l = true)
    (h' : ∀ hl : l ≠ [], jsWs (l.getLast hl) = false) : jsTrim l = l := by
  unfold jsTrim
  have h1 : l.dropWhile jsWs = l := by
    rw [List.dropWhile_eq_self_iff]
    intro hl
    cases l with
    | nil => simp at hl
    | cons c rest => simpa [headNotWs] using h
  rw [h1, List.rdropWhile_eq_self_iff]
  intro hl
  simpa using h' hl

theorem lastNotWs_jsTrim (l : List Char) (hl : jsTrim l ≠ []) :
    jsWs ((jsTrim l).getLast hl) = false := by
  have := List.rdropWhile_last_not jsWs (l.dropWhile jsWs) (by simpa [jsTrim] using hl)
  simpa [jsTrim] using this

/-- Trimming is idempotent. -/
theorem jsTrim_idem (l : List Char) : jsTrim (jsTrim l) = jsTrim l :=
  jsTrim_eq_self (headNotWs_jsTrim l) (fun hl => lastNotWs_jsTrim l hl)

theorem jsTrim_ne_nil_of_head {c : Char} {l : List Char} (hc : jsWs c = false) :
    jsTrim (c :: l) ≠ [] := by
  unfold jsTrim
  rw [List.dropWhile_cons, hc]
  simp only [Bool.false_eq_true, if_false]
  intro h
  rw [List.rdropWhile_eq_nil_iff] at h
  exact absurd (h c (by simp)) (by simp [hc])

/-! ## Divergence at capacity 0 (the code's infinite loop) -/

/-- On a trimmed non-empty text with both capacities 0 the loop never makes
progress: the break point is 0, the extracted chunk is `""` and the remaining
text is unchanged, so no amount of fuel finishes the loop. -/
theorem splitGo_zero_cap {fuel : ℕ} {t : List Char} (ht : jsTrim t = t)
    (hne : t ≠ []) : splitGo fuel t 0 0 = none := by
  induction fuel generalizing t with
  | zero => rfl
  | succ n ih =>
    unfold splitGo
    have hlen : t.length ≠ 0 := by simpa using hne
    simp only [hlen, if_false, Nat.le_zero, breakPointOf_zero, List.take_zero,
      List.drop_zero, ht]
    rw [ih ht hne]
    rfl

/-! ## Termination for positive continuation capacity -/

theorem splitGo_isSome {c2 : ℕ} (hc2 : 1 ≤ c2) :
    ∀ fuel (t : List Char) cap, 1 ≤ cap → t.length + 1 ≤ fuel →
      (splitGo fuel t cap c2).isSome := by
  intro fuel
  induction fuel with
  | zero => intro t cap _ h; omega
  | succ n ih =>
    intro t cap hcap hfuel
    unfold splitGo
    by_cases h0 : t.length = 0
    · simp [h0]
    · simp only [h0, if_false]
      by_cases hle : t.length ≤ cap
      · simp [hle]
      · simp only [hle, if_false]
        have hbp := breakPointOf_pos t hcap
        have hrest : (jsTrim (t.drop (breakPointOf t cap))).length + 1 ≤ n := by
          have h1 := jsTrim_length_le (t.drop (breakPointOf t cap))
          have h2 : (t.drop (breakPointOf t cap)).length = t.length - breakPointOf t cap := by
            simp
          omega
        have := ih (jsTrim (t.drop (breakPointOf t cap))) c2 hc2 hrest
        obtain ⟨v, hv⟩ := Option.isSome_iff_exists.mp this
        simp [hv]

/-! ## Non-empty chunks -/

theorem splitGo_chunks_ne_nil {c2 : ℕ} :
    ∀ fuel (t : List Char) cap ps, splitGo fuel t cap c2 = some ps →
      1 ≤ cap → headNotWs t = true → ∀ ch ∈ ps, ch ≠ [] := by
  intro fuel
  induction fuel with
  | zero => intro t cap ps h; simp [splitGo] at h
  | succ n ih =>
    intro t cap ps h hcap hhead
    unfold splitGo at h
    by_cases h0 : t.length = 0
    · simp [h0] at h
      simp [h]
    · simp only [h0, if_false] at h
      by_cases hle : t.length ≤ cap
      · simp only [hle, if_true] at h
        obtain rfl : [t] = ps := by simpa using h
        intro ch hch
        obtain rfl : ch = t := by simpa using hch
        exact fun hnil => h0 (by simp [hnil])
      · simp only [hle, if_false] at h
        obtain ⟨ps', hrec, rfl⟩ := Option.map_eq_some'.mp h
        intro ch hch
        rcases List.mem_cons.mp hch with rfl | hch'
        · -- the extracted chunk is non-empty: bp ≥ 1 and the head of t is not ws
          obtain ⟨c, rest, rfl⟩ : ∃ c rest, t = c :: rest := by
            cases t with
            | nil => simp at h0
            | cons c rest => exact ⟨c, rest, rfl⟩
          have hc : jsWs c = false := by simpa [headNotWs] using hhead
          have hbp := breakPointOf_pos (c :: rest) hcap
          obtain ⟨m, hm⟩ : ∃ m, breakPointOf (c :: rest) cap = m + 1 :=
            ⟨breakPointOf (c :: rest) cap - 1, by omega⟩
          rw [hm]
          simpa using jsTrim_ne_nil_of_head (l := rest.take m) hc
        · -- chunks of the recursive call
          rcases Nat.lt_or_ge c2 1 with hc2 | hc2
          · -- continuation capacity 0: recursion converges only on empty rest
            obtain rfl : c2 = 0 := by omega
            by_cases hrest : jsTrim (t.drop (breakPointOf t cap)) = []
            · rw [hrest] at hrec
              cases n with
              | zero => simp [splitGo] at hrec
              | succ m =>
                obtain rfl : ps' = [] := by
                  simpa [splitGo] using hrec.symm
                simp at hch'
            · have := @splitGo_zero_cap n (jsTrim (t.drop (breakPointOf t cap)))
                (jsTrim_idem (t.drop (breakPointOf t cap))) hrest
              rw [this] at hrec
              simp at hrec
          · exact ih _ c2 ps' hrec hc2
              (headNotWs_jsTrim (t.drop (breakPointOf t cap))) ch hch'

/-! ## Reconstruction: no non-whitespace character is lost or duplicated -/

/-- The non-whitespace characters of a list, in order. -/
def nonWsChars (l : List Char) : List Char := l.filter (fun c => !jsWs c)

/-- Joining a chunk list with single spaces. -/
def joinPagesData : List (List Char) → List Char
  | [] => []
  | [p] => p
  | p :: ps => p ++ ' ' :: joinPagesData ps

/-- Joining rendered page chunks with single spaces. -/
def joinPages (ps : List String) : String := ⟨joinPagesData (ps.map (·.data))⟩

theorem nonWsChars_dropWhile (l : List Char) :
    nonWsChars (l.dropWhile jsWs) = nonWsChars l := by
  induction l with
  | nil => rfl
  | cons c rest ih =>
    by_cases h : jsWs c
    · simpa [List.dropWhile_cons, h, nonWsChars, List.filter_cons] using ih
    · simp [List.dropWhile_cons, h]

theorem nonWsChars_rdropWhile (l : List Char) :
    nonWsChars (l.rdropWhile jsWs) = nonWsChars l := by
  have h1 : nonWsChars l.reverse = (nonWsChars l).reverse := by
    simp [nonWsChars, List.filter_reverse]
  calc nonWsChars (l.rdropWhile jsWs)
      = nonWsChars (l.reverse.dropWhile jsWs).reverse := by simp [List.rdropWhile]
    _ = (nonWsChars (l.reverse.dropWhile jsWs)).reverse := by
        simp [nonWsChars, List.filter_reverse]
    _ = (nonWsChars l.reverse).reverse := by rw [nonWsChars_dropWhile]
    _ = nonWsChars l := by rw [h1, List.reverse_reverse]

theorem nonWsChars_jsTrim (l : List Char) : nonWsChars (jsTrim l) = nonWsChars l := by
  unfold jsTrim
  rw [nonWsChars_rdropWhile, nonWsChars_dropWhile]

theorem joinPagesData_single (a : List Char) : joinPagesData [a] = a := rfl

theorem joinPagesData_cons₂ (a p : List Char) (ps : List (List Char)) :
    joinPagesData (a :: p :: ps) = a ++ ' ' :: joinPagesData (p :: ps) := rfl

theorem nonWsChars_append (a b : List Char) :
    nonWsChars (a ++ b) = nonWsChars a ++ nonWsChars b :=
  List.filter_append a b

theorem nonWsChars_join_cons (a : List Char) (ps : List (List Char)) :
    nonWsChars (joinPagesData (a :: ps)) =
      nonWsChars a ++ nonWsChars (joinPagesData ps) := by
  cases ps with
  | nil => exact (List.append_nil _).symm
  | cons p ps' =>
    rw [joinPagesData_cons₂, nonWsChars_append]
    congr 1

theorem splitGo_reconstruct {c2 : ℕ} : ∀ fuel (t : List Char) cap ps,
    splitGo fuel t cap c2 = some ps →
    nonWsChars (joinPagesData ps) = nonWsChars t := by
  intro fuel
  induction fuel with
  | zero => intro t cap ps h; simp [splitGo] at h
  | succ n ih =>
    intro t cap ps h
    unfold splitGo at h
    by_cases h0 : t.length = 0
    · simp [h0] at h
      obtain rfl : t = [] := List.length_eq_zero.mp h0
      subst h
      rfl
    · simp only [h0, if_false] at h
      by_cases hle : t.length ≤ cap
      · simp only [hle, if_true] at h
        obtain rfl : [t] = ps := by simpa using h
        rfl
      · simp only [hle, if_false] at h
        obtain ⟨ps', hrec, rfl⟩ := Option.map_eq_some'.mp h
        rw [nonWsChars_join_cons, ih _ c2 ps' hrec, nonWsChars_jsTrim,
          nonWsChars_jsTrim]
        rw [← nonWsChars_append, List.take_append_drop]

/-! ## Characterization of the break-point precedence -/

theorem sentenceBreakOf_occurs {t : List Char} {cap s : ℕ}
    (h : sentenceBreakOf t cap = some s) :
    occursAt ['.', ' '] t s = true ∨ occursAt ['!', ' '] t s = true ∨
      occursAt ['?', ' '] t s = true := by
  unfold sentenceBreakOf at h
  rcases optMax_eq_some h with h' | h'
  · rcases optMax_eq_some h' with h'' | h''
    · exact Or.inl (lastIndexOfLe_occurs h'')
    · exact Or.inr (Or.inl (lastIndexOfLe_occurs h''))
  · exact Or.inr (Or.inr (lastIndexOfLe_occurs h'))

theorem optMax_ge_left {a b : Option ℕ} {x s : ℕ} (h : optMax a b = some s)
    (ha : a = some x) : x ≤ s := by
  subst ha
  cases b with
  | none =>
    obtain rfl : x = s := by simpa [optMax] using h
    exact le_refl _
  | some y =>
    obtain rfl : max x y = s := by simpa [optMax] using h
    exact le_max_left x y

theorem optMax_ge_right {a b : Option ℕ} {y s : ℕ} (h : optMax a b = some s)
    (hb : b = some y) : y ≤ s := by
  subst hb
  cases a with
  | none =>
    obtain rfl : y = s := by simpa [optMax] using h
    exact le_refl _
  | some x =>
    obtain rfl : max x y = s := by simpa [optMax] using h
    exact le_max_right x y

theorem optMax_exists_left {a b : Option ℕ} {x : ℕ} (ha : a = some x) :
    ∃ s, optMax a b = some s ∧ x ≤ s := by
  subst ha
  cases b with
  | none => exact ⟨x, rfl, le_refl x⟩
  | some y => exact ⟨max x y, rfl, le_max_left x y⟩

theorem optMax_exists_right {a b : Option ℕ} {y : ℕ} (hb : b = some y) :
    ∃ s, optMax a b = some s ∧ y ≤ s := by
  subst hb
  cases a with
  | none => exact ⟨y, rfl, le_refl y⟩
  | some x => exact ⟨max x y, rfl, le_max_right x y⟩

/-- If one of `". "`, `"! "`, `"? "` occurs at `j ≤ cap`, the sentence-break
candidate is `some s` with `j ≤ s`. -/
theorem sentenceBreakOf_ge {t : List Char} {cap j : ℕ} (hj : j ≤ cap)
    (hocc : occursAt ['.', ' '] t j = true ∨ occursAt ['!', ' '] t j = true ∨
      occursAt ['?', ' '] t j = true) :
    ∃ s, sentenceBreakOf t cap = some s ∧ j ≤ s := by
  unfold sentenceBreakOf
  rcases hocc with hocc | hocc | hocc
  · obtain ⟨i, hi⟩ := Option.isSome_iff_exists.mp (lastIndexOfLe_isSome hj hocc)
    have hji := lastIndexOfLe_max hi hj hocc
    obtain ⟨s1, hs1, his1⟩ := optMax_exists_left (b := lastIndexOfLe ['!', ' '] t cap) hi
    obtain ⟨s, hs, hs1s⟩ := optMax_exists_left (b := lastIndexOfLe ['?', ' '] t cap) hs1
    exact ⟨s, hs, by omega⟩
  · obtain ⟨i, hi⟩ := Option.isSome_iff_exists.mp (lastIndexOfLe_isSome hj hocc)
    have hji := lastIndexOfLe_max hi hj hocc
    obtain ⟨s1, hs1, his1⟩ := optMax_exists_right (a := lastIndexOfLe ['.', ' '] t cap) hi
    obtain ⟨s, hs, hs1s⟩ := optMax_exists_left (b := lastIndexOfLe ['?', ' '] t cap) hs1
    exact ⟨s, hs, by omega⟩
  · obtain ⟨i, hi⟩ := Option.isSome_iff_exists.mp (lastIndexOfLe_isSome hj hocc)
    have hji := lastIndexOfLe_max hi hj hocc
    obtain ⟨s, hs, his⟩ := optMax_exists_right
      (a := optMax (lastIndexOfLe ['.', ' '] t cap) (lastIndexOfLe ['!', ' '] t cap)) hi
    exact ⟨s, hs, by omega⟩

/-- Paragraph precedence: if the last `"\n\n"` at or before `cap` sits at
`p` with `2*p > cap`, the break point is `p + 2` — no matter what sentence or
word breaks exist. -/
theorem breakPointOf_paragraph {t : List Char} {cap p : ℕ}
    (hocc : occursAt ['\n', '\n'] t p = true) (hle : p ≤ cap)
    (hmax : ∀ q ≤ cap, occursAt ['\n', '\n'] t q = true → q ≤ p)
    (hpos : cap < 2 * p) : breakPointOf t cap = p + 2 := by
  obtain ⟨i, hi⟩ := Option.isSome_iff_exists.mp (lastIndexOfLe_isSome hle hocc)
  obtain rfl : i = p :=
    le_antisymm (hmax i (lastIndexOfLe_le hi) (lastIndexOfLe_occurs hi))
      (lastIndexOfLe_max hi hle hocc)
  unfold breakPointOf
  rw [hi]
  simp [hpos]

/-- No qualifying paragraph break: every `"\n\n"` occurrence at or before
`cap` is at position `q` with `2*q ≤ cap`. -/
def noParagraphBreak (t : List Char) (cap : ℕ) : Prop :=
  ∀ q ≤ cap, occursAt ['\n', '\n'] t q = true → 2 * q ≤ cap

/-- No qualifying sentence break: every `". "`/`"! "`/`"? "` occurrence at or
before `cap` is at position `q` with `5*q ≤ 3*cap`. -/
def noSentenceBreak (t : List Char) (cap : ℕ) : Prop :=
  ∀ q ≤ cap, (occursAt ['.', ' '] t q = true ∨ occursAt ['!', ' '] t q = true ∨
    occursAt ['?', ' '] t q = true) → 5 * q ≤ 3 * cap

/-- No qualifying word break: every space at or before `cap` is at a
position that does not pass the double-arithmetic 70% test. -/
def noWordBreak (t : List Char) (cap : ℕ) : Prop :=
  ∀ q ≤ cap, occursAt [' '] t q = true → wordThresholdHit q cap = false

theorem breakPointOf_eq_sentence {t : List Char} {cap : ℕ}
    (hpar : noParagraphBreak t cap) : breakPointOf t cap = breakPointSentence t cap := by
  unfold breakPointOf
  cases hp : lastIndexOfLe ['\n', '\n'] t cap with
  | none => rfl
  | some p =>
    have h2p := hpar p (lastIndexOfLe_le hp) (lastIndexOfLe_occurs hp)
    simp only []
    rw [if_neg (by omega)]

/-- Sentence precedence: if no paragraph break qualifies and the last
sentence break at or before `cap` sits at `s` with `5*s > 3*cap`, the break
point is `s + 2`. -/
theorem breakPointOf_sentence {t : List Char} {cap s : ℕ}
    (hpar : noParagraphBreak t cap)
    (hocc : occursAt ['.', ' '] t s = true ∨ occursAt ['!', ' '] t s = true ∨
      occursAt ['?', ' '] t s = true)
    (hle : s ≤ cap)
    (hmax : ∀ q ≤ cap, (occursAt ['.', ' '] t q = true ∨
      occursAt ['!', ' '] t q = true ∨ occursAt ['?', ' '] t q = true) → q ≤ s)
    (hpos : 3 * cap < 5 * s) : breakPointOf t cap = s + 2 := by
  rw [breakPointOf_eq_sentence hpar]
  obtain ⟨s', hs', hss'⟩ := sentenceBreakOf_ge hle hocc
  obtain rfl : s' = s :=
    le_antisymm (hmax s' (sentenceBreakOf_le hs') (sentenceBreakOf_occurs hs')) hss'
  unfold breakPointSentence
  rw [hs']
  simp [hpos]

theorem breakPointSentence_eq_word {t : List Char} {cap : ℕ}
    (hsent : noSentenceBreak t cap) :
    breakPointSentence t cap = breakPointWord t cap := by
  unfold breakPointSentence
  cases hs : sentenceBreakOf t cap with
  | none => rfl
  | some s =>
    have h5s := hsent s (sentenceBreakOf_le hs) (sentenceBreakOf_occurs hs)
    simp only []
    rw [if_neg (by omega)]

/-- Word precedence: if neither paragraph nor sentence break qualifies and
the last space at or before `cap` sits at `w` passing the double-arithmetic
test `w > cap * 0.7`, the break point is `w + 1`. -/
theorem breakPointOf_word {t : List Char} {cap w : ℕ}
    (hpar : noParagraphBreak t cap) (hsent : noSentenceBreak t cap)
    (hocc : occursAt [' '] t w = true) (hle : w ≤ cap)
    (hmax : ∀ q ≤ cap, occursAt [' '] t q = true → q ≤ w)
    (hpos : wordThresholdHit w cap = true) : breakPointOf t cap = w + 1 := by
  rw [breakPointOf_eq_sentence hpar, breakPointSentence_eq_word hsent]
  obtain ⟨i, hi⟩ := Option.isSome_iff_exists.mp (lastIndexOfLe_isSome hle hocc)
  obtain rfl : i = w :=
    le_antisymm (hmax i (lastIndexOfLe_le hi) (lastIndexOfLe_occurs hi))
      (lastIndexOfLe_max hi hle hocc)
  unfold breakPointWord
  rw [hi]
  simp [hpos]

/-- Hard break: if no boundary qualifies, the text is cut exactly at the
capacity. -/
theorem breakPointOf_hard {t : List Char} {cap : ℕ}
    (hpar : noParagraphBreak t cap) (hsent : noSentenceBreak t cap)
    (hword : noWordBreak t cap) : breakPointOf t cap = cap := by
  rw [breakPointOf_eq_sentence hpar, breakPointSentence_eq_word hsent]
  unfold breakPointWord
  cases hw : lastIndexOfLe [' '] t cap with
  | none => rfl
  | some w =>
    have h10w := hword w (lastIndexOfLe_le hw) (lastIndexOfLe_occurs hw)
    simp only []
    rw [if_neg (by simp [h10w])]

/-! ## `normalizeTextSpacing` (server.js:201-211) -/

/-- The punctuation class `[.,;:!?]` of `normalizeTextSpacing`. -/
def isPunct (c : Char) : Bool :=
  c = '.' || c = ',' || c = ';' || c = ':' || c = '!' || c = '?'

/-- The replacement `s.replace(/\s+([.,;:!?])/g, '$1')` as the left-to-right scan the JS
regex engine performs: a maximal whitespace run immediately followed by a
punctuation character is replaced by the punctuation character alone. -/
def stripWsBeforePunct : List Char → List Char
  | [] => []
  | c :: rest =>
    if jsWs c then
      match h : rest.dropWhile jsWs with
      | p :: r2 =>
        if isPunct p then p :: stripWsBeforePunct r2
        else c :: stripWsBeforePunct rest
      | [] => c :: stripWsBeforePunct rest
    else c :: stripWsBeforePunct rest
termination_by l => l.length
decreasing_by
  · have h1 : (rest.dropWhile jsWs).length ≤ rest.length :=
      (List.dropWhile_suffix jsWs).length_le
    rw [h] at h1
    simp only [List.length_cons] at h1 ⊢
    omega
  · simp only [List.length_cons]; omega
  · simp only [List.length_cons]; omega
  · simp only [List.length_cons]; omega

/-- The replacement `s.replace(/([.,;:!?])([^\s])/g, '$1 $2')` as a left-to-right scan:
a punctuation character directly followed by a non-whitespace character gets
a space inserted between them; the matched pair is consumed. -/
def spaceAfterPunct : List Char → List Char
  | [] => []
  | [c] => [c]
  | a :: b :: rest =>
    if isPunct a && !jsWs b then a :: ' ' :: b :: spaceAfterPunct rest
    else a :: spaceAfterPunct (b :: rest)
termination_by l => l.length
decreasing_by
  · simp only [List.length_cons]; omega
  · simp only [List.length_cons]; omega

/-- The replacement `s.replace(/\s{2,}/g, ' ')` as a left-to-right scan: every maximal run of
two or more whitespace characters becomes a single space; a lone whitespace
character is kept as it is. -/
def collapseWsRuns : List Char → List Char
  | [] => []
  | [a] => [a]
  | a :: b :: rest =>
    if jsWs a then
      if jsWs b then ' ' :: collapseWsRuns ((b :: rest).dropWhile jsWs)
      else a :: collapseWsRuns (b :: rest)
    else a :: collapseWsRuns (b :: rest)
termination_by l => l.length
decreasing_by
  · have h1 : ((b :: rest).dropWhile jsWs).length ≤ (b :: rest).length :=
      (List.dropWhile_suffix jsWs).length_le
    simp only [List.length_cons] at h1 ⊢
    omega
  · simp only [List.length_cons]; omega
  · simp only [List.length_cons]; omega

/-- The function `normalizeTextSpacing` (server.js:201-211): strip whitespace before
punctuation, ensure one space after punctuation, collapse whitespace runs,
trim. -/
def normalizeTextSpacing (s : String) : String :=
  ⟨jsTrim (collapseWsRuns (spaceAfterPunct (stripWsBeforePunct s.data)))⟩

/-! ## No run of two whitespace characters survives normalization -/

/-- No two consecutive whitespace characters. -/
def noDoubleWs (l : List Char) : Prop :=
  List.Chain' (fun a b => ¬(jsWs a = true ∧ jsWs b = true)) l

/-- Executable check for `noDoubleWs`. -/
def noDoubleWsB : List Char → Bool
  | [] => true
  | [_] => true
  | a :: b :: rest => (!(jsWs a && jsWs b)) && noDoubleWsB (b :: rest)

theorem noDoubleWsB_iff (l : List Char) : noDoubleWsB l = true ↔ noDoubleWs l := by
  induction l with
  | nil => simp [noDoubleWsB, noDoubleWs]
  | cons a rest ih =>
    cases rest with
    | nil => simp [noDoubleWsB, noDoubleWs]
    | cons b rest' =>
      rw [noDoubleWs, List.chain'_cons]
      rw [show noDoubleWsB (a :: b :: rest') =
        ((!(jsWs a && jsWs b)) && noDoubleWsB (b :: rest')) from rfl]
      rw [Bool.and_eq_true, ih]
      unfold noDoubleWs
      constructor
      · rintro ⟨h1, h2⟩
        refine ⟨?_, h2⟩
        simp only [Bool.not_eq_true', Bool.and_eq_false_iff] at h1
        rintro ⟨ha, hb⟩
        rcases h1 with h1 | h1 <;> simp_all
      · rintro ⟨h1, h2⟩
        refine ⟨?_, h2⟩
        simp only [Bool.not_eq_true', Bool.and_eq_false_iff]
        by_cases ha : jsWs a
        · by_cases hb : jsWs b
          · exact absurd ⟨ha, hb⟩ h1
          · right; simpa using hb
        · left; simpa using ha

instance (l : List Char) : Decidable (noDoubleWs l) :=
  decidable_of_iff (noDoubleWsB l = true) (noDoubleWsB_iff l)

/-- The last character of a list is not whitespace (vacuously true for `[]`). -/
def lastNotWs (l : List Char) : Bool :=
  match l.getLast? with
  | some c => !jsWs c
  | none => true

theorem collapseWsRuns_head {c : Char} (l : List Char) (hc : jsWs c = false) :
    (collapseWsRuns (c :: l)).head? = some c := by
  cases l with
  | nil => simp [collapseWsRuns]
  | cons b rest => simp [collapseWsRuns, hc]

theorem noDoubleWs_collapseWsRuns (l : List Char) : noDoubleWs (collapseWsRuns l) := by
  induction l using collapseWsRuns.induct with
  | case1 => simp [collapseWsRuns, noDoubleWs]
  | case2 a => simp [collapseWsRuns, noDoubleWs]
  | case3 a b rest ha hb ih =>
    rw [show collapseWsRuns (a :: b :: rest) =
        ' ' :: collapseWsRuns ((b :: rest).dropWhile jsWs) by
      simp [collapseWsRuns, ha, hb]]
    rw [noDoubleWs, List.chain'_cons']
    refine ⟨?_, ih⟩
    intro y hy
    cases hd : (b :: rest).dropWhile jsWs with
    | nil => simp [hd, collapseWsRuns] at hy
    | cons c l' =>
      have hcws : jsWs c = false := by
        have := headNotWs_dropWhile (b :: rest)
        rw [hd] at this
        simpa [headNotWs] using this
      rw [hd, collapseWsRuns_head l' hcws] at hy
      obtain rfl : c = y := by simpa using hy
      simp [hcws]
  | case4 a b rest ha hb ih =>
    rw [show collapseWsRuns (a :: b :: rest) = a :: collapseWsRuns (b :: rest) by
      simp [collapseWsRuns, ha, hb]]
    rw [noDoubleWs, List.chain'_cons']
    refine ⟨?_, ih⟩
    intro y hy
    rw [collapseWsRuns_head rest (by simpa using hb)] at hy
    obtain rfl : b = y := by simpa using hy
    simp [by simpa using hb]
  | case5 a b rest ha ih =>
    rw [show collapseWsRuns (a :: b :: rest) = a :: collapseWsRuns (b :: rest) by
      simp [collapseWsRuns, ha]]
    rw [noDoubleWs, List.chain'_cons']
    refine ⟨?_, ih⟩
    intro y hy
    simp [ha]

theorem noDoubleWs_jsTrim {l : List Char} (h : noDoubleWs l) : noDoubleWs (jsTrim l) :=
  List.Chain'.prefix (h.suffix (List.dropWhile_suffix jsWs))
    ( List.rdropWhile_prefix jsWs (l.dropWhile jsWs))

theorem noDoubleWs_normalize (s : String) :
    noDoubleWs (normalizeTextSpacing s).data :=
  noDoubleWs_jsTrim (noDoubleWs_collapseWsRuns _)

/-- In a text with no two adjacent whitespace characters, `"\n\n"` occurs
nowhere. -/
theorem noDoubleWs_no_nlnl {t : List Char} (h : noDoubleWs t) (i : ℕ) :
    occursAt ['\n', '\n'] t i = false := by
  by_contra hocc
  rw [Bool.not_eq_false] at hocc
  have hpre : ['\n', '\n'] <+: t.drop i := by
    simpa [occursAt, List.isPrefixOf_iff_prefix] using hocc
  obtain ⟨tail, htail⟩ := hpre
  have hchain : noDoubleWs (t.drop i) := h.suffix (List.drop_suffix i t)
  rw [← htail] at hchain
  have := List.chain'_cons.mp hchain
  exact this.1 ⟨by decide, by decide⟩

theorem lastIndexOfLe_nlnl_none {t : List Char} (h : noDoubleWs t) (cap : ℕ) :
    lastIndexOfLe ['\n', '\n'] t cap = none := by
  cases h' : lastIndexOfLe ['\n', '\n'] t cap with
  | none => rfl
  | some p =>
    have := lastIndexOfLe_occurs h'
    rw [noDoubleWs_no_nlnl h p] at this
    simp at this

/-- On whitespace-normalized text the paragraph branch of the break-point
selection is unreachable. -/
theorem breakPointOf_no_paragraph {t : List Char} (h : noDoubleWs t) (cap : ℕ) :
    breakPointOf t cap = breakPointSentence t cap := by
  unfold breakPointOf
  rw [lastIndexOfLe_nlnl_none h cap]

/-- The splitter's remainder operation preserves the no-double-whitespace
invariant, so the paragraph branch stays unreachable on every iteration. -/
theorem noDoubleWs_remainder {t : List Char} (h : noDoubleWs t) (bp : ℕ) :
    noDoubleWs (jsTrim (t.drop bp)) :=
  noDoubleWs_jsTrim (h.suffix (List.drop_suffix bp t))

/-! ## `calculateTextCapacityWithRendering` (server.js:226-332) -/

/-- The mm→pt conversion factor 2.83465 (server.js:254-255). -/
def MM : ℚ := 283465 / 100000

/-- The split `paragraph.split(/\s+/).filter(w => w.length > 0)` (server.js:285): the
maximal non-whitespace runs of a paragraph, in order. -/
def wordsOf : List Char → List (List Char)
  | [] => []
  | c :: rest =>
    if jsWs c then wordsOf rest
    else (c :: rest.takeWhile (fun d => !jsWs d)) ::
      wordsOf (rest.dropWhile (fun d => !jsWs d))
termination_by l => l.length
decreasing_by
  · simp only [List.length_cons]; omega
  · have := (List.dropWhile_suffix (l := rest) (fun d => !jsWs d)).length_le
    simp only [List.length_cons]; omega

/-- The split `text.split(/\n/)` (server.js:268). -/
def paragraphsOf (t : List Char) : List (List Char) := t.splitOn '\n'

/-- The text of a line built from words: `cur ? cur + " " + word : word`
repeated (server.js:289). -/
def joinWords : List (List Char) → List Char
  | [] => []
  | [w] => w
  | w :: ws => w ++ ' ' :: joinWords ws

/-- The measurement `font.widthOfTextAtSize(testLine, fontSize)` plus the character-spacing
term `testLine.length * characterSpacing`, the latter added only when
`characterSpacing > 0` (server.js:292-295). The pdf-lib width of a string is
the sum of per-character advance widths, modelled by `cw`. -/
def measureLine (cw : Char → ℚ) (cs : ℚ) (l : List Char) : ℚ :=
  (l.map cw).sum + (if 0 < cs then l.length * cs else 0)

/-- The per-paragraph word loop of `calculateTextCapacityWithRendering`
(server.js:284-319): processes `words` with current line `cur`, committed
line count `ln` and character count `cc`. `Sum.inr cc` is the early
`return charCount`; `Sum.inl (ln, cc)` continues with the next paragraph.
The final clause is the end-of-paragraph trailing-line commit
(server.js:311-319). -/
def wordLoop (cw : Char → ℚ) (cs W : ℚ) (maxLines : ℤ) :
    List (List Char) → List (List Char) → ℕ → ℕ → (ℕ × ℕ) ⊕ ℕ
  | [], cur, ln, cc =>
    if cur ≠ [] ∧ (ln : ℤ) < maxLines then
      Sum.inl (ln + 1, cc + ((joinWords cur).length + 1))
    else if cur ≠ [] then Sum.inr cc
    else Sum.inl (ln, cc)
  | w :: ws, cur, ln, cc =>
    if W < measureLine cw cs (joinWords (cur ++ [w])) ∧ cur ≠ [] then
      if maxLines ≤ (ln : ℤ) then Sum.inr cc
      else wordLoop cw cs W maxLines ws [w] (ln + 1) (cc + ((joinWords cur).length + 1))
    else wordLoop cw cs W maxLines ws (cur ++ [w]) ln cc

/-- The paragraph loop of `calculateTextCapacityWithRendering`
(server.js:272-320): a blank paragraph consumes one line slot and one
character if a slot remains (otherwise the loop breaks); a non-blank
paragraph is word-wrapped by `wordLoop`. -/
def parLoop (cw : Char → ℚ) (cs W : ℚ) (maxLines : ℤ) :
    List (List Char) → ℕ → ℕ → ℕ
  | [], _, cc => cc
  | p :: ps, ln, cc =>
    if jsTrim p = [] then
      if (ln : ℤ) < maxLines then parLoop cw cs W maxLines ps (ln + 1) (cc + 1)
      else cc
    else
      match wordLoop cw cs W maxLines (wordsOf p) [] ln cc with
      | Sum.inr cc' => cc'
      | Sum.inl (ln', cc') => parLoop cw cs W maxLines ps ln' cc'

/-- The line budget `maxLines = Math.floor(heightPt / lineHeightPt)` with
`heightPt = heightMm*2.83465 - (2*2.83465)*2` (server.js:254-260). -/
def maxLinesOf (heightMm fontSize lineHeight : ℚ) : ℤ :=
  ⌊(heightMm * MM - 2 * MM * 2) / (fontSize * lineHeight)⌋

/-- The function `calculateTextCapacityWithRendering(text, widthMm, heightMm, fontSize,
lineHeight, fontData, characterSpacing)` (server.js:226-332), success path:
the font metrics of the loaded font are modelled by the per-character
advance-width function `cw`. -/
def calculateTextCapacityWithRendering (cw : Char → ℚ) (text : String)
    (widthMm heightMm fontSize lineHeight cs : ℚ) : ℕ :=
  parLoop cw cs (widthMm * MM) (maxLinesOf heightMm fontSize lineHeight)
    (paragraphsOf text.data) 0 0

/-- The fallback `calculateTextCapacityEstimate(width, height, fontSize, lineHeight)`
(server.js:342-365), the fallback used when font measurement fails. Note:
unlike the render-based path it does NOT subtract the 2 mm padding from the
height. -/
def calculateTextCapacityEstimate (width height fontSize lineHeight : ℚ) : ℤ :=
  let widthPt := width * MM
  let heightPt := height * MM
  let avgCharWidth := fontSize * (42 / 100)
  let charsPerLine := ⌊widthPt / avgCharWidth⌋
  let lineHeightPt := fontSize * lineHeight
  let usableHeightPt := heightPt * (95 / 100)
  let linesPerPage := ⌊usableHeightPt / lineHeightPt⌋
  ⌊(charsPerLine * linesPerPage : ℚ) * (92 / 100)⌋

/-- The fallback formula exactly as claim C9 words it: `usableHeightPt` is
the padding-adjusted height in points (2 mm top + 2 mm bottom subtracted),
`charsPerLine = floor(widthPt / (fontSize*0.42))`,
`linesPerPage = floor(usableHeightPt*0.95 / lineHeightPt)`,
`capacity = floor(charsPerLine * linesPerPage * 0.92)`. -/
def capacityEstimateClaimC9 (width height fontSize lineHeight : ℚ) : ℤ :=
  let widthPt := width * MM
  let usableHeightPt := height * MM - 2 * MM * 2
  let charsPerLine := ⌊widthPt / (fontSize * (42 / 100))⌋
  let lineHeightPt := fontSize * lineHeight
  let linesPerPage := ⌊usableHeightPt * (95 / 100) / lineHeightPt⌋
  ⌊(charsPerLine * linesPerPage : ℚ) * (92 / 100)⌋

/-! ## The committed-lines view of the word-wrap loop -/

/-- Greedy absorption (the inner `if` of server.js:297-308): starting from
the current line `cur`, absorb words while the candidate fits; the first word
of a line is always absorbed. Returns the committed line and remaining words. -/
def lineSplit (cw : Char → ℚ) (cs W : ℚ) :
    List (List Char) → List (List Char) → List (List Char) × List (List Char)
  | cur, [] => (cur, [])
  | cur, w :: rest =>
    if W < measureLine cw cs (joinWords (cur ++ [w])) ∧ cur ≠ [] then (cur, w :: rest)
    else lineSplit cw cs W (cur ++ [w]) rest

theorem lineSplit_snd_suffix (cw : Char → ℚ) (cs W : ℚ) :
    ∀ ws cur, (lineSplit cw cs W cur ws).2 <:+ ws := by
  intro ws
  induction ws with
  | nil => intro cur; exact List.nil_suffix
  | cons w rest ih =>
    intro cur
    unfold lineSplit
    split
    · exact List.suffix_refl _
    · exact (ih (cur ++ [w])).trans (List.suffix_cons w rest)

/-- The sequence of lines the word loop commits for one paragraph. -/
def wrapWords (cw : Char → ℚ) (cs W : ℚ) : List (List Char) → List (List (List Char))
  | [] => []
  | w :: rest =>
    (lineSplit cw cs W [w] rest).1 :: wrapWords cw cs W (lineSplit cw cs W [w] rest).2
termination_by ws => ws.length
decreasing_by
  have := (lineSplit_snd_suffix cw cs W rest [w]).length_le
  simp only [List.length_cons]
  omega

/-- The lines committed from the word-loop state `(cur, ws)`: the current
greedy line followed by the wrap of what remains. -/
def linesFrom (cw : Char → ℚ) (cs W : ℚ) (cur ws : List (List Char)) :
    List (List (List Char)) :=
  (lineSplit cw cs W cur ws).1 :: wrapWords cw cs W (lineSplit cw cs W cur ws).2

theorem wrapWords_cons (cw : Char → ℚ) (cs W : ℚ) (w : List Char)
    (rest : List (List Char)) :
    wrapWords cw cs W (w :: rest) = linesFrom cw cs W [w] rest := by
  rw [wrapWords, linesFrom]

/-- The character-count contribution of one committed line: `length + 1`
(server.js:304/314), where a blank line contributes `1` (server.js:277). -/
def lineChars (line : List (List Char)) : ℕ :=
  if line = [] then 1 else (joinWords line).length + 1

/-- All lines the paragraph loop would commit with an unbounded line budget. -/
def pageLines (cw : Char → ℚ) (cs W : ℚ) : List (List Char) → List (List (List Char))
  | [] => []
  | p :: ps =>
    (if jsTrim p = [] then [[]] else wrapWords cw cs W (wordsOf p)) ++
      pageLines cw cs W ps

theorem jsTrim_eq_nil_iff {l : List Char} : jsTrim l = [] ↔ ∀ c ∈ l, jsWs c = true := by
  unfold jsTrim
  rw [List.rdropWhile_eq_nil_iff]
  constructor
  · intro h c hc
    by_cases hcw : jsWs c = true
    · exact hcw
    · -- c survives the leading dropWhile, contradiction
      exfalso
      have : c ∈ l.dropWhile jsWs := by
        have h2 : l.takeWhile jsWs ++ l.dropWhile jsWs = l :=
          List.takeWhile_append_dropWhile jsWs l
        rcases List.mem_append.mp (by rw [h2]; exact hc) with h3 | h3
        · exact absurd (List.mem_takeWhile_imp h3) hcw
        · exact h3
      exact hcw (h c this)
  · intro h c hc
    exact h c ((List.dropWhile_suffix jsWs).subset hc)

theorem linesFrom_nil (cw : Char → ℚ) (cs W : ℚ) (cur : List (List Char)) :
    linesFrom cw cs W cur [] = [cur] := by
  rw [linesFrom, lineSplit, wrapWords]

theorem linesFrom_commit {cw : Char → ℚ} {cs W : ℚ} {cur : List (List Char)}
    {w : List Char} (ws : List (List Char))
    (h : W < measureLine cw cs (joinWords (cur ++ [w])) ∧ cur ≠ []) :
    linesFrom cw cs W cur (w :: ws) = cur :: linesFrom cw cs W [w] ws := by
  rw [linesFrom, lineSplit, if_pos h, ← wrapWords_cons]

theorem linesFrom_absorb {cw : Char → ℚ} {cs W : ℚ} {cur : List (List Char)}
    {w : List Char} (ws : List (List Char))
    (h : ¬(W < measureLine cw cs (joinWords (cur ++ [w])) ∧ cur ≠ [])) :
    linesFrom cw cs W cur (w :: ws) = linesFrom cw cs W (cur ++ [w]) ws := by
  rw [linesFrom, linesFrom, lineSplit, if_neg h]

theorem wordsOf_ne_nil {p : List Char} (h : jsTrim p ≠ []) : wordsOf p ≠ [] := by
  obtain ⟨c, hc, hcw⟩ : ∃ c ∈ p, jsWs c = false := by
    by_contra hall
    push_neg at hall
    exact h (jsTrim_eq_nil_iff.mpr (fun c hc => by
      have := hall c hc
      simpa using this))
  clear h
  induction p with
  | nil => simp at hc
  | cons d rest ih =>
    unfold wordsOf
    by_cases hd : jsWs d
    · simp only [hd, if_true]
      rcases List.mem_cons.mp hc with rfl | hc'
      · rw [hd] at hcw; simp at hcw
      · exact ih hc'
    · simp [hd]

/-- The word loop, expressed through the lines it will commit: it commits
`linesFrom cur ws` truncated to the remaining line budget, adding `length+1`
characters per committed line, and early-returns exactly when the budget is
exhausted before the paragraph ends. -/
theorem wordLoop_spec (cw : Char → ℚ) (cs W : ℚ) (maxLines : ℤ) :
    ∀ ws cur ln cc, cur ≠ [] →
      wordLoop cw cs W maxLines ws cur ln cc =
        if ln + (linesFrom cw cs W cur ws).length ≤ maxLines.toNat then
          Sum.inl (ln + (linesFrom cw cs W cur ws).length,
            cc + ((linesFrom cw cs W cur ws).map lineChars).sum)
        else
          Sum.inr (cc + (((linesFrom cw cs W cur ws).take
            (maxLines.toNat - ln)).map lineChars).sum) := by
  intro ws
  induction ws with
  | nil =>
    intro cur ln cc hcur
    rw [linesFrom_nil]
    unfold wordLoop
    by_cases hln : (ln : ℤ) < maxLines
    · rw [if_pos ⟨hcur, hln⟩]
      have h1 : ln < maxLines.toNat := Int.lt_toNat.mpr hln
      rw [if_pos (by simp only [List.length_singleton]; omega)]
      simp [lineChars, hcur]
    · rw [if_neg (by tauto), if_pos hcur]
      have h1 : maxLines.toNat ≤ ln := Int.toNat_le.mpr (Int.not_lt.mp hln)
      rw [if_neg (by simp only [List.length_singleton]; omega)]
      have h2 : maxLines.toNat - ln = 0 := by omega
      rw [h2]
      simp
  | cons w ws ih =>
    intro cur ln cc hcur
    unfold wordLoop
    by_cases hover : W < measureLine cw cs (joinWords (cur ++ [w])) ∧ cur ≠ []
    · rw [if_pos hover, linesFrom_commit ws hover]
      by_cases hln : maxLines ≤ (ln : ℤ)
      · rw [if_pos hln]
        have h1 : ¬ln < maxLines.toNat := fun h => by
          have := Int.lt_toNat.mp h; omega
        have hlen : 1 ≤ (cur :: linesFrom cw cs W [w] ws).length := by simp
        rw [if_neg (by simp only [List.length_cons]; omega)]
        have h2 : maxLines.toNat - ln = 0 := by omega
        rw [h2]
        simp
      · rw [if_neg hln]
        have hlt : ln < maxLines.toNat := Int.lt_toNat.mpr (by omega)
        rw [ih [w] (ln + 1) (cc + ((joinWords cur).length + 1)) (by simp)]
        by_cases hfit : ln + 1 + (linesFrom cw cs W [w] ws).length ≤ maxLines.toNat
        · rw [if_pos hfit, if_pos (by simp only [List.length_cons]; omega)]
          simp only [List.length_cons, List.map_cons, List.sum_cons, Sum.inl.injEq,
            Prod.mk.injEq]
          constructor
          · omega
          · have : lineChars cur = (joinWords cur).length + 1 := by
              simp [lineChars, hcur]
            omega
        · rw [if_neg hfit, if_neg (by simp only [List.length_cons]; omega)]
          have h3 : maxLines.toNat - ln = (maxLines.toNat - (ln + 1)) + 1 := by omega
          rw [h3, List.take_succ_cons]
          simp only [List.map_cons, List.sum_cons, Sum.inr.injEq]
          have : lineChars cur = (joinWords cur).length + 1 := by
            simp [lineChars, hcur]
          omega
    · rw [if_neg hover, linesFrom_absorb ws hover]
      exact ih (cur ++ [w]) ln cc (by simp)

/-- Wrapping a non-empty word list yields a non-empty line list. -/
theorem wrapWords_ne_nil (cw : Char → ℚ) (cs W : ℚ) (w : List Char)
    (ws : List (List Char)) : wrapWords cw cs W (w :: ws) ≠ [] := by
  rw [wrapWords]
  simp

/-- The paragraph loop, expressed through the committed-lines view: starting
with `ln` committed lines and `cc` counted characters, it returns `cc` plus
the contributions of the next `maxLines.toNat - ln` lines of `pageLines`. -/
theorem parLoop_spec (cw : Char → ℚ) (cs W : ℚ) (maxLines : ℤ) :
    ∀ ps ln cc, parLoop cw cs W maxLines ps ln cc =
      cc + (((pageLines cw cs W ps).take (maxLines.toNat - ln)).map lineChars).sum := by
  intro ps
  induction ps with
  | nil => intro ln cc; simp [parLoop, pageLines]
  | cons p ps ih =>
    intro ln cc
    unfold parLoop pageLines
    by_cases hblank : jsTrim p = []
    · rw [if_pos hblank, if_pos hblank]
      by_cases hln : (ln : ℤ) < maxLines
      · rw [if_pos hln, ih]
        have hlt : ln < maxLines.toNat := Int.lt_toNat.mpr hln
        have h1 : maxLines.toNat - ln = (maxLines.toNat - (ln + 1)) + 1 := by omega
        rw [h1]
        simp only [List.singleton_append, List.take_succ_cons, List.map_cons,
          List.sum_cons]
        have : lineChars ([] : List (List Char)) = 1 := rfl
        omega
      · rw [if_neg hln]
        have h1 : maxLines.toNat - ln = 0 := by
          have : ¬ln < maxLines.toNat := fun h => hln (Int.lt_toNat.mp h)
          omega
        rw [h1]
        simp
    · rw [if_neg hblank, if_neg hblank]
      obtain ⟨w, ws', hws⟩ : ∃ w ws', wordsOf p = w :: ws' := by
        cases hw : wordsOf p with
        | nil => exact absurd hw (wordsOf_ne_nil hblank)
        | cons w ws' => exact ⟨w, ws', rfl⟩
      rw [hws]
      rw [show wordLoop cw cs W maxLines (w :: ws') [] ln cc =
            wordLoop cw cs W maxLines ws' [w] ln cc by
        rw [wordLoop]
        rw [if_neg (by simp)]
        rfl]
      rw [wordLoop_spec cw cs W maxLines ws' [w] ln cc (by simp)]
      rw [← wrapWords_cons]
      set L := wrapWords cw cs W (w :: ws') with hL
      by_cases hfit : ln + L.length ≤ maxLines.toNat
      · rw [if_pos hfit]
        simp only []
        rw [ih]
        rw [List.take_append_eq_append_take, List.map_append, List.sum_append]
        have h1 : L.take (maxLines.toNat - ln) = L := by
          apply List.take_of_length_le
          omega
        rw [h1]
        have h2 : maxLines.toNat - ln - L.length = maxLines.toNat - (ln + L.length) := by
          omega
        rw [h2]
        omega
      · rw [if_neg hfit]
        simp only []
        rw [List.take_append_eq_append_take, List.map_append, List.sum_append]
        have h1 : maxLines.toNat - ln - L.length = 0 := by omega
        rw [h1]
        simp

/-- The bridge: the capacity computed by the faithful loop equals the sum of
the per-line contributions of the first `maxLines.toNat` committed lines. -/
theorem capacity_eq_sum_take (cw : Char → ℚ) (text : String)
    (widthMm heightMm fontSize lineHeight cs : ℚ) :
    calculateTextCapacityWithRendering cw text widthMm heightMm fontSize lineHeight cs =
      (((pageLines cw cs (widthMm * MM) (paragraphsOf text.data)).take
        (maxLinesOf heightMm fontSize lineHeight).toNat).map lineChars).sum := by
  rw [calculateTextCapacityWithRendering, parLoop_spec]
  simp

/-! ## Height monotonicity and degenerate-geometry facts -/

theorem MM_pos : 0 < MM := by norm_num [MM]

theorem sum_map_take_le {α : Type} (f : α → ℕ) (l : List α) {m n : ℕ} (h : m ≤ n) :
    ((l.take m).map f).sum ≤ ((l.take n).map f).sum := by
  conv_lhs => rw [show l.take m = (l.take n).take m by
    rw [List.take_take, min_eq_left h]]
  conv_rhs => rw [show l.take n = (l.take n).take m ++ (l.take n).drop m from
    (List.take_append_drop m (l.take n)).symm]
  rw [List.map_append, List.sum_append]
  omega

theorem maxLinesOf_mono {h1 h2 fs lh : ℚ} (hpos : 0 < fs * lh) (hle : h1 ≤ h2) :
    maxLinesOf h1 fs lh ≤ maxLinesOf h2 fs lh := by
  unfold maxLinesOf
  apply Int.floor_le_floor
  apply (div_le_div_right hpos).mpr
  have := mul_le_mul_of_nonneg_right hle (le_of_lt MM_pos)
  linarith

/-- Non-decreasing in the frame height (all other parameters fixed). -/
theorem capacity_mono_in_height (cw : Char → ℚ) (text : String)
    (widthMm fontSize lineHeight cs : ℚ) (hpos : 0 < fontSize * lineHeight)
    {h1 h2 : ℚ} (hle : h1 ≤ h2) :
    calculateTextCapacityWithRendering cw text widthMm h1 fontSize lineHeight cs ≤
      calculateTextCapacityWithRendering cw text widthMm h2 fontSize lineHeight cs := by
  rw [capacity_eq_sum_take, capacity_eq_sum_take]
  exact sum_map_take_le _ _ (Int.toNat_le_toNat (maxLinesOf_mono hpos hle))

theorem maxLinesOf_neg {h fs lh : ℚ} (hpos : 0 < fs * lh) (hh : h ≤ 0) :
    maxLinesOf h fs lh < 0 := by
  unfold maxLinesOf
  have hnum : h * MM - 2 * MM * 2 < 0 := by nlinarith [MM_pos]
  have hdiv : (h * MM - 2 * MM * 2) / (fs * lh) < 0 := div_neg_of_neg_of_pos hnum hpos
  have : ((0 : ℤ) : ℚ) = 0 := by norm_num
  exact Int.floor_lt.mpr (by rw [this]; exact hdiv)

/-- Degenerate (zero or negative) height yields capacity 0 for every text. -/
theorem capacity_degenerate_height (cw : Char → ℚ) (text : String)
    (widthMm heightMm fontSize lineHeight cs : ℚ)
    (hpos : 0 < fontSize * lineHeight) (hh : heightMm ≤ 0) :
    calculateTextCapacityWithRendering cw text widthMm heightMm fontSize lineHeight cs = 0 := by
  rw [capacity_eq_sum_take]
  have h1 : (maxLinesOf heightMm fontSize lineHeight).toNat = 0 := by
    have := maxLinesOf_neg hpos hh
    omega
  rw [h1]
  simp

/-- Empty text yields capacity 1 (not 0) whenever at least one line fits:
the single empty paragraph consumes a line slot and counts one character. -/
theorem capacity_empty_text (cw : Char → ℚ)
    (widthMm heightMm fontSize lineHeight cs : ℚ)
    (hm : 1 ≤ maxLinesOf heightMm fontSize lineHeight) :
    calculateTextCapacityWithRendering cw "" widthMm heightMm fontSize lineHeight cs = 1 := by
  rw [capacity_eq_sum_take]
  have hpar : paragraphsOf ("" : String).data = [[]] := rfl
  rw [hpar]
  have hpl : pageLines cw cs (widthMm * MM) [[]] = [[]] := by
    rw [pageLines, pageLines]
    simp [jsTrim]
  rw [hpl]
  obtain ⟨m, hm'⟩ : ∃ m, (maxLinesOf heightMm fontSize lineHeight).toNat = m + 1 := by
    have : 1 ≤ (maxLinesOf heightMm fontSize lineHeight).toNat := by omega
    exact ⟨(maxLinesOf heightMm fontSize lineHeight).toNat - 1, by omega⟩
  rw [hm']
  simp [lineChars]

/-! ## Width monotonicity: greedy-wrap domination -/

/-- A candidate line fits the frame width. -/
def fitsLine (cw : Char → ℚ) (cs W : ℚ) (l : List (List Char)) : Prop :=
  measureLine cw cs (joinWords l) ≤ W

theorem measureLine_nonneg {cw : Char → ℚ} (hcw : ∀ c, 0 ≤ cw c) (cs : ℚ)
    (l : List Char) : 0 ≤ measureLine cw cs l := by
  unfold measureLine
  have h1 : 0 ≤ (l.map cw).sum :=
    List.sum_nonneg (fun x hx => by
      obtain ⟨c, _, rfl⟩ := List.mem_map.mp hx
      exact hcw c)
  have h2 : (0 : ℚ) ≤ if 0 < cs then (l.length : ℚ) * cs else 0 := by
    split
    · positivity
    · exact le_refl 0
  linarith

theorem measureLine_append (cw : Char → ℚ) (cs : ℚ) (a b : List Char) :
    measureLine cw cs (a ++ b) = measureLine cw cs a + measureLine cw cs b := by
  unfold measureLine
  rw [List.map_append, List.sum_append, List.length_append]
  split
  · push_cast
    ring
  · ring

theorem joinWords_cons_ne (w : List Char) {l : List (List Char)} (hl : l ≠ []) :
    joinWords (w :: l) = w ++ ' ' :: joinWords l := by
  cases l with
  | nil => exact absurd rfl hl
  | cons x xs => rfl

theorem joinWords_append {xs ys : List (List Char)} (hxs : xs ≠ []) (hys : ys ≠ []) :
    joinWords (xs ++ ys) = joinWords xs ++ ' ' :: joinWords ys := by
  induction xs with
  | nil => exact absurd rfl hxs
  | cons x xs' ih =>
    cases hxs' : xs' with
    | nil =>
      subst hxs'
      rw [List.singleton_append, joinWords_cons_ne x hys]
      rfl
    | cons y ys' =>
      subst hxs'
      rw [List.cons_append, joinWords_cons_ne x (by simp),
        joinWords_cons_ne x (by simp), ih (by simp)]
      simp

/-- A non-empty suffix of a fitting line fits (requires non-negative character
widths). -/
theorem fitsLine_suffix {cw : Char → ℚ} (hcw : ∀ c, 0 ≤ cw c) {cs W : ℚ}
    {xs ys : List (List Char)} (hys : ys ≠ [])
    (h : fitsLine cw cs W (xs ++ ys)) : fitsLine cw cs W ys := by
  cases xs with
  | nil => simpa using h
  | cons x xs' =>
    unfold fitsLine at h ⊢
    rw [joinWords_append (by simp) hys, measureLine_append] at h
    rw [show (' ' :: joinWords ys) = [' '] ++ joinWords ys from rfl,
      measureLine_append] at h
    have h1 := measureLine_nonneg hcw cs (joinWords (x :: xs'))
    have h3 := measureLine_nonneg hcw cs [' ']
    linarith

theorem fitsLine_mono_W {cw : Char → ℚ} {cs W1 W2 : ℚ} (hW : W1 ≤ W2)
    {l : List (List Char)} (h : fitsLine cw cs W1 l) : fitsLine cw cs W2 l :=
  le_trans h hW

theorem lineSplit_append (cw : Char → ℚ) (cs W : ℚ) :
    ∀ ws cur, (lineSplit cw cs W cur ws).1 ++ (lineSplit cw cs W cur ws).2 =
      cur ++ ws := by
  intro ws
  induction ws with
  | nil => intro cur; simp [lineSplit]
  | cons w rest ih =>
    intro cur
    unfold lineSplit
    split
    · rfl
    · rw [ih (cur ++ [w])]
      simp

theorem lineSplit_fst_ne_nil (cw : Char → ℚ) (cs W : ℚ) :
    ∀ ws cur, cur ≠ [] → (lineSplit cw cs W cur ws).1 ≠ [] := by
  intro ws
  induction ws with
  | nil => intro cur hcur; simpa [lineSplit] using hcur
  | cons w rest ih =>
    intro cur hcur
    unfold lineSplit
    split
    · exact hcur
    · exact ih (cur ++ [w]) (by simp)

/-- Every prefix (of ≥ 2 words) of a committed greedy line fits: the greedy
loop only extends a non-empty line when the candidate fits. -/
theorem lineSplit_fst_prefix_fits {cw : Char → ℚ} {cs W : ℚ} :
    ∀ ws cur, (∀ i, 2 ≤ i → i ≤ cur.length → fitsLine cw cs W (cur.take i)) →
      ∀ i, 2 ≤ i → i ≤ (lineSplit cw cs W cur ws).1.length →
        fitsLine cw cs W ((lineSplit cw cs W cur ws).1.take i) := by
  intro ws
  induction ws with
  | nil => intro cur hcur; simpa [lineSplit] using hcur
  | cons w rest ih =>
    intro cur hcur
    unfold lineSplit
    split
    · exact hcur
    · rename_i hcond
      apply ih (cur ++ [w])
      intro i h2i hi
      rw [List.length_append, List.length_singleton] at hi
      rcases Nat.lt_or_ge i (cur.length + 1) with hlt | hge
      · have hile : i ≤ cur.length := by omega
        rw [List.take_append_eq_append_take,
          show i - cur.length = 0 by omega, List.take_zero, List.append_nil]
        exact hcur i h2i hile
      · obtain rfl : i = cur.length + 1 := by omega
        rw [List.take_of_length_le (by simp)]
        rcases not_and_or.mp hcond with hfit | hnil
        · exact not_lt.mp hfit
        · exfalso
          have : cur.length = 0 := by
            simpa [List.length_eq_zero] using not_not.mp hnil
          omega

/-- If every candidate extension through `mid` fits, the greedy absorption
walks through all of `mid`. -/
theorem lineSplit_absorb_through {cw : Char → ℚ} {cs W : ℚ} :
    ∀ (mid : List (List Char)) cur r, cur ≠ [] →
      (∀ j, 1 ≤ j → j ≤ mid.length → fitsLine cw cs W (cur ++ mid.take j)) →
      lineSplit cw cs W cur (mid ++ r) = lineSplit cw cs W (cur ++ mid) r := by
  intro mid
  induction mid with
  | nil => intro cur r _ _; simp
  | cons m mid' ih =>
    intro cur r hcur hfits
    rw [List.cons_append, lineSplit]
    have hfit1 : fitsLine cw cs W (cur ++ [m]) := by
      have := hfits 1 le_rfl (by simp)
      simpa using this
    rw [if_neg (by
      rintro ⟨hlt, -⟩
      exact absurd (not_lt.mpr hfit1) (by simpa using hlt))]
    rw [ih (cur ++ [m]) r (by simp) ?_]
    · rw [List.append_assoc]
      rfl
    · intro j h1j hj
      have := hfits (j + 1) (by omega) (by simpa using Nat.add_le_add_right hj 1)
      rw [List.take_succ_cons] at this
      simpa [List.append_assoc] using this

/-- One wrap step on the remaining word list: take one greedy line off. -/
def stepRem (cw : Char → ℚ) (cs W : ℚ) : List (List Char) → List (List Char)
  | [] => []
  | w :: ws => (lineSplit cw cs W [w] ws).2

theorem stepRem_suffix (cw : Char → ℚ) (cs W : ℚ) (r : List (List Char)) :
    stepRem cw cs W r <:+ r := by
  cases r with
  | nil => exact List.nil_suffix
  | cons w ws =>
    exact ((lineSplit_snd_suffix cw cs W ws [w]).trans (List.suffix_cons w ws))

/-- The key simulation step: with a wider frame the remaining-words suffix
after taking one line is at least as short — a wider greedy line absorbs at
least all the words of the narrower one. -/
theorem stepRem_dom {cw : Char → ℚ} (hcw : ∀ c, 0 ≤ cw c) {cs W1 W2 : ℚ}
    (hW : W1 ≤ W2) :
    ∀ r1 r2, r2 <:+ r1 → stepRem cw cs W2 r2 <:+ stepRem cw cs W1 r1 := by
  intro r1 r2 hsuf
  cases hr1 : r1 with
  | nil =>
    subst hr1
    obtain rfl : r2 = [] := List.suffix_nil.mp hsuf
    exact List.suffix_refl _
  | cons w ws =>
    subst hr1
    set l1 := (lineSplit cw cs W1 [w] ws).1 with hl1
    set r1' := (lineSplit cw cs W1 [w] ws).2 with hr1'
    have hpart : l1 ++ r1' = w :: ws := by
      rw [hl1, hr1']
      exact lineSplit_append cw cs W1 ws [w]
    have hfits1 : ∀ i, 2 ≤ i → i ≤ l1.length → fitsLine cw cs W1 (l1.take i) := by
      intro i h2 hi
      exact lineSplit_fst_prefix_fits ws [w] (by
        intro j h2j hj
        simp at hj
        omega) i h2 hi
    have hr1'suf : r1' <:+ w :: ws := by
      rw [← hpart]
      exact ⟨l1, rfl⟩
    show stepRem cw cs W2 r2 <:+ r1'
    rcases List.suffix_or_suffix_of_suffix hsuf hr1'suf with hcase | hcase
    · exact (stepRem_suffix cw cs W2 r2).trans hcase
    · -- r1' <:+ r2: write r2 = mid ++ r1' with mid a suffix of l1
      obtain ⟨mid, hmid⟩ := hcase
      cases hmidnil : mid with
      | nil =>
        rw [hmidnil] at hmid
        simp at hmid
        rw [← hmid]
        exact stepRem_suffix cw cs W2 _
      | cons m mid' =>
        subst hmidnil
        -- l1 = pre ++ mid
        obtain ⟨pre, hpre⟩ : ∃ pre, pre ++ (m :: mid') = l1 := by
          obtain ⟨p, hp⟩ := hsuf
          rw [← hmid, ← hpart] at hp
          rw [← List.append_assoc] at hp
          exact ⟨p, List.append_cancel_right hp⟩
        -- the wide line from r2 = (m :: mid') ++ r1' absorbs all of mid
        rw [← hmid]
        show (lineSplit cw cs W2 [m] (mid' ++ r1')).2 <:+ r1'
        have habs : lineSplit cw cs W2 [m] (mid' ++ r1') =
            lineSplit cw cs W2 ([m] ++ mid') r1' := by
          apply lineSplit_absorb_through mid' [m] r1' (by simp)
          intro j h1j hj
          have hidx : 2 ≤ pre.length + (j + 1) := by omega
          have hlen : pre.length + (j + 1) ≤ l1.length := by
            rw [← hpre]
            simp only [List.length_append, List.length_cons]
            omega
          have hfit := hfits1 (pre.length + (j + 1)) hidx hlen
          rw [← hpre, List.take_append_eq_append_take,
            show pre.length + (j + 1) - pre.length = j + 1 by omega,
            List.take_of_length_le (le_of_eq rfl |>.trans (by simp))] at hfit
          · have := fitsLine_suffix hcw (by simp) hfit
            rw [List.take_succ_cons] at this
            exact fitsLine_mono_W hW (by simpa using this)
        rw [habs]
        exact lineSplit_snd_suffix cw cs W2 r1' ([m] ++ mid')

/-- Remaining words after `m` wrap steps. -/
def remAfter (cw : Char → ℚ) (cs W : ℚ) : ℕ → List (List Char) → List (List Char)
  | 0, r => r
  | m + 1, r => remAfter cw cs W m (stepRem cw cs W r)

theorem remAfter_suffix (cw : Char → ℚ) (cs W : ℚ) :
    ∀ m r, remAfter cw cs W m r <:+ r := by
  intro m
  induction m with
  | zero => intro r; exact List.suffix_refl r
  | succ m ih =>
    intro r
    exact (ih (stepRem cw cs W r)).trans (stepRem_suffix cw cs W r)

theorem remAfter_dom {cw : Char → ℚ} (hcw : ∀ c, 0 ≤ cw c) {cs W1 W2 : ℚ}
    (hW : W1 ≤ W2) :
    ∀ m r1 r2, r2 <:+ r1 →
      remAfter cw cs W2 m r2 <:+ remAfter cw cs W1 m r1 := by
  intro m
  induction m with
  | zero => intro r1 r2 h; exact h
  | succ m ih =>
    intro r1 r2 h
    exact ih (stepRem cw cs W1 r1) (stepRem cw cs W2 r2) (stepRem_dom hcw hW r1 r2 h)

theorem remAfter_nil (cw : Char → ℚ) (cs W : ℚ) (m : ℕ) :
    remAfter cw cs W m [] = [] :=
  List.suffix_nil.mp (remAfter_suffix cw cs W m [])

/-- The number of words in the first `m` wrap lines equals the number of
consumed words. -/
theorem sum_take_map_length_wrap (cw : Char → ℚ) (cs W : ℚ) :
    ∀ m ws, (((wrapWords cw cs W ws).take m).map List.length).sum =
      ws.length - (remAfter cw cs W m ws).length := by
  intro m
  induction m with
  | zero => intro ws; simp [remAfter]
  | succ m ih =>
    intro ws
    cases ws with
    | nil =>
      rw [show wrapWords cw cs W [] = [] from by rw [wrapWords]]
      rw [show remAfter cw cs W (m + 1) [] = [] from remAfter_nil cw cs W (m + 1)]
      simp
    | cons w rest =>
      rw [wrapWords]
      set l1 := (lineSplit cw cs W [w] rest).1 with hl1
      set r1' := (lineSplit cw cs W [w] rest).2 with hr1'
      have hpart : l1 ++ r1' = w :: rest := lineSplit_append cw cs W rest [w]
      have hstep : stepRem cw cs W (w :: rest) = r1' := rfl
      have hra : remAfter cw cs W (m + 1) (w :: rest) = remAfter cw cs W m r1' := by
        rw [remAfter, hstep]
      rw [List.take_succ_cons, List.map_cons, List.sum_cons, ih r1', hra]
      have h1 : (remAfter cw cs W m r1').length ≤ r1'.length :=
        (remAfter_suffix cw cs W m r1').length_le
      have h2 : l1.length + r1'.length = (w :: rest).length := by
        rw [← hpart, List.length_append]
      simp only [List.length_cons] at h2 ⊢
      omega

/-- Prefix word-count domination: a wider frame consumes at least as many
words within any given number of lines. -/
theorem wrap_count_dom {cw : Char → ℚ} (hcw : ∀ c, 0 ≤ cw c) {cs W1 W2 : ℚ}
    (hW : W1 ≤ W2) (m : ℕ) (ws : List (List Char)) :
    (((wrapWords cw cs W1 ws).take m).map List.length).sum ≤
      (((wrapWords cw cs W2 ws).take m).map List.length).sum := by
  rw [sum_take_map_length_wrap, sum_take_map_length_wrap]
  have hdom := (@remAfter_dom cw hcw cs W1 W2 hW m ws ws (List.suffix_refl ws)).length_le
  have h1 := (remAfter_suffix cw cs W1 m ws).length_le
  omega

theorem sum_take_le_of_le (l : List ℕ) {m n : ℕ} (h : m ≤ n) :
    (l.take m).sum ≤ (l.take n).sum := by
  conv_lhs => rw [show l.take m = (l.take n).take m by
    rw [List.take_take, min_eq_left h]]
  conv_rhs => rw [show l.take n = (l.take n).take m ++ (l.take n).drop m from
    (List.take_append_drop m (l.take n)).symm]
  rw [List.sum_append]
  omega

/-- Summing block sums over the first `m` blocks equals summing the flattened
values up to the total length of those blocks. -/
theorem sum_take_map_sum_blocks {α : Type} (v : α → ℕ) :
    ∀ (blocks : List (List α)) (m : ℕ),
      ((blocks.take m).map (fun b => (b.map v).sum)).sum =
        ((blocks.flatten.map v).take (((blocks.take m).map List.length).sum)).sum := by
  intro blocks
  induction blocks with
  | nil => intro m; simp
  | cons b bs ih =>
    intro m
    cases m with
    | zero => simp
    | succ m =>
      rw [List.take_succ_cons, List.map_cons, List.sum_cons, ih m,
        List.flatten_cons, List.map_append, List.map_cons, List.sum_cons]
      have h3 : List.take (b.length + (List.map List.length (List.take m bs)).sum)
          (List.map v b ++ List.map v bs.flatten) =
          List.map v b ++ List.take ((List.map List.length (List.take m bs)).sum)
            (List.map v bs.flatten) := by
        rw [List.take_append_eq_append_take,
          List.take_of_length_le (by rw [List.length_map]; omega)]
        congr 2
        rw [List.length_map]
        omega
      rw [h3, List.sum_append]

/-- The contribution of a non-blank committed line is the sum of
`wordLength + 1` over its words. -/
theorem lineChars_eq_sum {line : List (List Char)} (h : line ≠ []) :
    lineChars line = (line.map (fun w => w.length + 1)).sum := by
  induction line with
  | nil => exact absurd rfl h
  | cons w rest ih =>
    cases hr : rest with
    | nil => simp [lineChars, joinWords]
    | cons x xs =>
      subst hr
      rw [lineChars, if_neg (by simp), joinWords_cons_ne w (by simp)]
      rw [List.length_append, List.length_cons, List.map_cons, List.sum_cons]
      have := ih (by simp)
      rw [lineChars, if_neg (by simp)] at this
      omega

theorem wrapWords_flatten (cw : Char → ℚ) (cs W : ℚ) :
    ∀ ws, (wrapWords cw cs W ws).flatten = ws := by
  intro ws
  induction ws using wrapWords.induct cw cs W with
  | case1 => rw [wrapWords]; rfl
  | case2 w rest ih =>
    rw [wrapWords, List.flatten_cons, ih]
    exact lineSplit_append cw cs W rest [w]

theorem wrapWords_mem_ne_nil (cw : Char → ℚ) (cs W : ℚ) :
    ∀ ws, ∀ l ∈ wrapWords cw cs W ws, l ≠ [] := by
  intro ws
  induction ws using wrapWords.induct cw cs W with
  | case1 => rw [wrapWords]; simp
  | case2 w rest ih =>
    rw [wrapWords]
    intro l hl
    rcases List.mem_cons.mp hl with rfl | hl'
    · exact lineSplit_fst_ne_nil cw cs W rest [w] (by simp)
    · exact ih l hl'

/-- Per-paragraph prefix contribution domination. -/
theorem wrap_contrib_dom {cw : Char → ℚ} (hcw : ∀ c, 0 ≤ cw c) {cs W1 W2 : ℚ}
    (hW : W1 ≤ W2) (m : ℕ) (ws : List (List Char)) :
    (((wrapWords cw cs W1 ws).take m).map lineChars).sum ≤
      (((wrapWords cw cs W2 ws).take m).map lineChars).sum := by
  have key : ∀ W, (((wrapWords cw cs W ws).take m).map lineChars).sum =
      ((ws.map (fun w => w.length + 1)).take
        (((wrapWords cw cs W ws).take m).map List.length).sum).sum := by
    intro W
    have h1 : ((wrapWords cw cs W ws).take m).map lineChars =
        ((wrapWords cw cs W ws).take m).map (fun b => (b.map (fun w => w.length + 1)).sum) := by
      apply List.map_congr_left
      intro l hl
      exact lineChars_eq_sum (wrapWords_mem_ne_nil cw cs W ws l (List.mem_of_mem_take hl))
    rw [h1, sum_take_map_sum_blocks, wrapWords_flatten]
  rw [key W1, key W2]
  exact sum_take_le_of_le _ (wrap_count_dom hcw hW m ws)

theorem sum_take_le_total (l : List ℕ) (m : ℕ) : (l.take m).sum ≤ l.sum := by
  conv_rhs => rw [← List.take_append_drop m l]
  rw [List.sum_append]
  omega

theorem length_le_of_take_sum_eq {b : List ℕ} (hb : ∀ x ∈ b, 1 ≤ x) {k : ℕ}
    (h : b.sum ≤ (b.take k).sum) : b.length ≤ k := by
  by_contra hlt
  push_neg at hlt
  have h1 : 1 ≤ (b.drop k).sum := by
    cases hd : b.drop k with
    | nil =>
      have := congrArg List.length hd
      simp at this
      omega
    | cons x xs =>
      have hx : x ∈ b := List.mem_of_mem_drop (by rw [hd]; simp)
      have := hb x hx
      rw [List.sum_cons]
      omega
  have h2 : (b.take k).sum + (b.drop k).sum = b.sum := by
    rw [← List.sum_append, List.take_append_drop]
  omega

/-- Concatenation preserves prefix-sum domination between blocks of equal
total whose dominating side has positive entries. -/
theorem concat_block_dom {a b fa fb : List ℕ}
    (hsum : a.sum = b.sum)
    (hdom : ∀ m, (a.take m).sum ≤ (b.take m).sum)
    (hb1 : ∀ x ∈ b, 1 ≤ x)
    (htail : ∀ m, (fa.take m).sum ≤ (fb.take m).sum) :
    ∀ m, ((a ++ fa).take m).sum ≤ ((b ++ fb).take m).sum := by
  have hblen : b.length ≤ a.length := by
    apply length_le_of_take_sum_eq hb1
    calc b.sum = a.sum := hsum.symm
      _ = (a.take a.length).sum := by rw [List.take_length]
      _ ≤ (b.take a.length).sum := hdom a.length
  intro m
  rw [List.take_append_eq_append_take, List.take_append_eq_append_take,
    List.sum_append, List.sum_append]
  have h1 : (a.take m).sum ≤ (b.take m).sum := hdom m
  have h2 : (fa.take (m - a.length)).sum ≤ (fb.take (m - a.length)).sum := htail _
  have h3 : (fb.take (m - a.length)).sum ≤ (fb.take (m - b.length)).sum :=
    sum_take_le_of_le fb (by omega)
  omega

theorem lineChars_pos (l : List (List Char)) : 1 ≤ lineChars l := by
  unfold lineChars
  split <;> omega

/-- The total contribution of a wrapped paragraph is width-independent. -/
theorem wrap_total_contrib (cw : Char → ℚ) (cs W : ℚ) (ws : List (List Char)) :
    ((wrapWords cw cs W ws).map lineChars).sum =
      (ws.map (fun w => w.length + 1)).sum := by
  have h1 : (wrapWords cw cs W ws).map lineChars =
      (wrapWords cw cs W ws).map (fun b => (b.map (fun w => w.length + 1)).sum) :=
    List.map_congr_left (fun l hl =>
      lineChars_eq_sum (wrapWords_mem_ne_nil cw cs W ws l hl))
  rw [h1]
  have h2 : ((wrapWords cw cs W ws).map
      (fun b => (b.map (fun w => w.length + 1)).sum)) =
      ((wrapWords cw cs W ws).map (List.map (fun w => w.length + 1))).map List.sum := by
    rw [List.map_map]
    rfl
  rw [h2, ← List.sum_flatten, ← List.map_flatten, wrapWords_flatten]

/-- Prefix contribution domination over the whole paragraph sequence. -/
theorem pageLines_contrib_dom {cw : Char → ℚ} (hcw : ∀ c, 0 ≤ cw c) {cs W1 W2 : ℚ}
    (hW : W1 ≤ W2) :
    ∀ (ps : List (List Char)) (m : ℕ),
      (((pageLines cw cs W1 ps).map lineChars).take m).sum ≤
        (((pageLines cw cs W2 ps).map lineChars).take m).sum := by
  intro ps
  induction ps with
  | nil => intro m; rw [pageLines, pageLines]
  | cons p ps ih =>
    intro m
    rw [pageLines, pageLines, List.map_append, List.map_append]
    by_cases hblank : jsTrim p = []
    · rw [if_pos hblank, if_pos hblank]
      exact concat_block_dom rfl (fun _ => le_refl _)
        (by intro x hx; simp [lineChars] at hx; omega) ih m
    · rw [if_neg hblank, if_neg hblank]
      apply concat_block_dom ?_ ?_ ?_ ih
      · rw [wrap_total_contrib, wrap_total_contrib]
      · intro k
        rw [← List.map_take, ← List.map_take]
        exact wrap_contrib_dom hcw hW k (wordsOf p)
      · intro x hx
        obtain ⟨l, _, rfl⟩ := List.mem_map.mp hx
        exact lineChars_pos l

/-- Non-decreasing in the frame width (all other parameters fixed). -/
theorem capacity_mono_in_width (cw : Char → ℚ) (text : String)
    (heightMm fontSize lineHeight cs : ℚ) (hcw : ∀ c, 0 ≤ cw c)
    {w1 w2 : ℚ} (hle : w1 ≤ w2) :
    calculateTextCapacityWithRendering cw text w1 heightMm fontSize lineHeight cs ≤
      calculateTextCapacityWithRendering cw text w2 heightMm fontSize lineHeight cs := by
  rw [capacity_eq_sum_take, capacity_eq_sum_take, List.map_take, List.map_take]
  exact pageLines_contrib_dom hcw
    (mul_le_mul_of_nonneg_right hle MM_pos.le) _ _

/-! ## Multi-page job construction (server.js:797-833) -/

/-- One single-page render job of the multi-page merge path: which base
layout it uses (first page vs. continuation) and the input field map handed
to the generator. -/
structure PageJob where
  usesFirstLayout : Bool
  fields : List (String × String)
deriving DecidableEq

/-- The single-page jobs the multi-page merge loop creates (server.js:797-833):
page 1 uses the first base PDF and binds the flow field name to chunk 0
(`page1InputData = { [fieldName]: textChunks[0] }`, server.js:799); every
continuation page (the `for (let i = 1; ...)` loop) uses the second base PDF
and binds the SAME field name to its chunk
(`pageInputData = { [fieldName]: textChunks[i] }`, server.js:818). The other
interpolated fields (`pdfInputData`) are not consulted in this path. -/
def buildJobs (fieldName : String) (pdfInputData : List (String × String)) :
    List String → List PageJob
  | [] => []
  | c0 :: rest =>
    { usesFirstLayout := true, fields := [(fieldName, c0)] } ::
      rest.map (fun c => { usesFirstLayout := false, fields := [(fieldName, c)] })

theorem buildJobs_length (fieldName : String) (pdfInputData : List (String × String))
    (textChunks : List String) :
    (buildJobs fieldName pdfInputData textChunks).length = textChunks.length := by
  cases textChunks <;> simp [buildJobs]

/-! ## Claims -/

/-- C1 (counterexample): the multi-page merge loop does NOT rename the flow
field. With chunks `["c0", "c1"]` job 1 binds chunk 1 to the original field
name `"body"`; its field map is the singleton `[("body", "c1")]`, which
visibly contains no `"body_page2"` key. -/
theorem C1_counterexample :
    (buildJobs "body" [] ["c0", "c1"]).map PageJob.fields =
      [[("body", "c0")], [("body", "c1")]] ∧
    ("body_page2", "c1") ∉ ([("body", "c1")] : List (String × String)) := by
  exact ⟨rfl, by decide⟩

/-- C1 (amended): for every chunk sequence, job `i` for `i ≥ 1` uses the
continuation layout and binds chunk `i` to the ORIGINAL flow field name — no
`_page`-suffixed renaming occurs, because each page is generated as its own
single-page document (with its own template) before the pages are merged, so
no field-name collision can arise. -/
theorem C1_continuation_jobs (fieldName : String)
    (pdfInputData : List (String × String)) (chunks : List String)
    (i : ℕ) (h1 : 1 ≤ i) (hi : i < chunks.length) :
    ((buildJobs fieldName pdfInputData chunks).get
        ⟨i, by rw [buildJobs_length]; exact hi⟩).usesFirstLayout = false ∧
    ((buildJobs fieldName pdfInputData chunks).get
        ⟨i, by rw [buildJobs_length]; exact hi⟩).fields =
      [(fieldName, chunks.get ⟨i, hi⟩)] := by
  cases chunks with
  | nil => simp at hi
  | cons c0 rest =>
    obtain ⟨j, rfl⟩ : ∃ j, i = j + 1 := ⟨i - 1, by omega⟩
    have hj : j < rest.length := by simpa using hi
    have hb : buildJobs fieldName pdfInputData (c0 :: rest) =
        { usesFirstLayout := true, fields := [(fieldName, c0)] } ::
          rest.map (fun c =>
            { usesFirstLayout := false, fields := [(fieldName, c)] }) := rfl
    simp only [List.get_eq_getElem]
    rw [List.getElem_of_eq hb]
    simp only [List.getElem_cons_succ, List.getElem_map]
    exact ⟨trivial, trivial⟩

theorem C1_witness :
    ((buildJobs "body" [("x", "y")] ["a", "b", "c"]).get
        ⟨2, by decide⟩).usesFirstLayout = false ∧
    ((buildJobs "body" [("x", "y")] ["a", "b", "c"]).get
        ⟨2, by decide⟩).fields = [("body", "c")] :=
  C1_continuation_jobs "body" [("x", "y")] ["a", "b", "c"] 2 (by decide) (by decide)

/-- C3 (counterexample): non-flow fields are NOT copied into job 0. With the
pass-through field `("customer", "Alice")` present in the interpolated input
data, job 0's field map is just the flow binding `[("body", "c0")]`, which
does not contain `("customer", "Alice")`. -/
theorem C3_counterexample :
    (buildJobs "body" [("customer", "Alice")] ["c0", "c1"]).map PageJob.fields =
      [[("body", "c0")], [("body", "c1")]] ∧
    ("customer", "Alice") ∉ ([("body", "c0")] : List (String × String)) :=
  ⟨rfl, by decide⟩

/-- C3 (amended): in the multi-page merge path EVERY job — job 0 included —
carries only the flow field; the non-flow fields of the interpolated input
data are not copied into any job (`pdfInputData` is never consulted there). -/
theorem C3_only_flow_field (fieldName : String)
    (pdfInputData : List (String × String)) (chunks : List String) :
    ∀ job ∈ buildJobs fieldName pdfInputData chunks,
      ∀ k v, (k, v) ∈ job.fields → k = fieldName := by
  intro job hjob k v hkv
  cases chunks with
  | nil =>
    rw [show buildJobs fieldName pdfInputData [] = [] from rfl] at hjob
    simp at hjob
  | cons c0 rest =>
    have hb : buildJobs fieldName pdfInputData (c0 :: rest) =
        { usesFirstLayout := true, fields := [(fieldName, c0)] } ::
          rest.map (fun c =>
            { usesFirstLayout := false, fields := [(fieldName, c)] }) := rfl
    rw [hb] at hjob
    rcases List.mem_cons.mp hjob with rfl | hjob'
    · have : (k, v) = (fieldName, c0) := by simpa using hkv
      exact (Prod.mk.injEq _ _ _ _ ▸ this).1
    · obtain ⟨c, _, rfl⟩ := List.mem_map.mp hjob'
      have : (k, v) = (fieldName, c) := by simpa using hkv
      exact (Prod.mk.injEq _ _ _ _ ▸ this).1

theorem C3_witness : "body" = "body" :=
  C3_only_flow_field "body" [("customer", "Alice")] ["x", "y"]
    { usesFirstLayout := true, fields := [("body", "x")] } (by decide)
    "body" "x" (by decide)

/-- C2 (counterexample): with both capacities 0 and the non-empty text
`"ab"`, the split loop never terminates — each iteration picks break point
0, extracts the chunk `""` and leaves the remaining text unchanged. The code
hangs; it does not produce pages. -/
theorem C2_counterexample : ¬ splitTerminates "ab" 0 0 := by
  rintro ⟨fuel, hfuel⟩
  rw [splitTextIntelligently, if_neg (by decide), if_neg (by decide),
    @splitGo_zero_cap fuel ("ab" : String).data (by decide) (by decide)] at hfuel
  simp at hfuel

theorem string_ne_empty_data {s : String} (h : s ≠ "") : s.data ≠ [] := by
  intro hd
  apply h
  cases s with
  | mk data => rw [show data = [] from hd]

/-- C2 (amended): the loop terminates whenever the continuation capacity is
at least 1 — fuel `text.length + 2` always suffices (at most one
zero-progress first iteration when the first-page capacity is 0, plus one
strictly-shortening iteration per character), and the final chunk absorbs
the remainder. With continuation capacity 0 and a longer-than-capacity text
the loop runs forever (see the counterexample); capacity 0 does NOT yield
single-character pages. -/
theorem C2_terminates (text : String) (c1 c2 : ℕ) (hc2 : 1 ≤ c2) :
    (splitTextIntelligently (text.length + 2) text c1 c2).isSome := by
  rw [splitTextIntelligently]
  by_cases h0 : text = ""
  · simp [h0]
  · rw [if_neg h0]
    by_cases hle : text.length ≤ c1
    · simp [hle]
    · rw [if_neg hle]
      have hdlen : text.data.length = text.length := rfl
      rcases Nat.lt_or_ge c1 1 with hc1 | hc1
      · obtain rfl : c1 = 0 := by omega
        rw [splitGo]
        rw [if_neg (by simpa [hdlen] using (by omega : ¬text.length = 0)),
          if_neg (by omega : ¬text.data.length ≤ 0)]
        rw [breakPointOf_zero]
        simp only [List.drop_zero]
        have hfit : (jsTrim text.data).length + 1 ≤ text.length + 1 := by
          have := jsTrim_length_le text.data
          omega
        obtain ⟨v, hv⟩ := Option.isSome_iff_exists.mp
          (splitGo_isSome hc2 (text.length + 1) (jsTrim text.data) c2 hc2 hfit)
        rw [hv]
        rfl
      · have hfit : text.data.length + 1 ≤ text.length + 2 := by omega
        obtain ⟨v, hv⟩ := Option.isSome_iff_exists.mp
          (splitGo_isSome hc2 (text.length + 2) text.data c1 hc1 hfit)
        rw [hv]
        rfl

theorem C2_witness :
    (1 ≤ 3) ∧ (splitTextIntelligently (("ab cde" : String).length + 2) "ab cde" 0 3).isSome :=
  ⟨by decide, C2_terminates "ab cde" 0 3 (by decide)⟩

/-- C4 (counterexample): a chunk CAN be empty for a non-empty input — with
text `" abc"` and capacities (1, 10) the first chunk is `""` (the hard break
at capacity 1 cuts the single leading space, which trims to the empty
string); likewise with first-page capacity 0 on `"ab"`. -/
theorem C4_counterexample :
    splitTextIntelligently 5 " abc" 1 10 = some ["", "abc"] ∧
    splitTextIntelligently 5 "ab" 0 10 = some ["", "ab"] ∧
    (" abc" : String) ≠ "" ∧ ("ab" : String) ≠ "" :=
  ⟨by decide, by decide, by decide, by decide⟩

/-- C4 (amended): an empty input yields the single chunk `""`; and whenever
the first-page capacity is at least 1 and the (non-empty) input text does
not begin with a whitespace character, every returned chunk is non-empty.
(With first-page capacity 0 or a leading whitespace character the first
chunk can be empty, as the counterexample shows.) -/
theorem C4_chunks_nonempty :
    (∀ fuel c1 c2, splitTextIntelligently fuel "" c1 c2 = some [""]) ∧
    (∀ fuel (t : String) c1 c2 ps, splitTextIntelligently fuel t c1 c2 = some ps →
      1 ≤ c1 → headNotWs t.data = true → t ≠ "" → ∀ ch ∈ ps, ch ≠ "") := by
  constructor
  · intro fuel c1 c2
    rw [splitTextIntelligently, if_pos rfl]
  · intro fuel t c1 c2 ps h hc1 hhead ht ch hch
    rw [splitTextIntelligently, if_neg ht] at h
    by_cases hle : t.length ≤ c1
    · rw [if_pos hle] at h
      obtain rfl : [t] = ps := by simpa using h
      obtain rfl : ch = t := by simpa using hch
      exact ht
    · rw [if_neg hle] at h
      obtain ⟨ps', hps', rfl⟩ := Option.map_eq_some'.mp h
      obtain ⟨l, hl, rfl⟩ := List.mem_map.mp hch
      have hne := splitGo_chunks_ne_nil fuel t.data c1 ps' hps' hc1 hhead l hl
      intro hempty
      exact hne (by simpa using congrArg String.data hempty)

theorem C4_witness : ("b c" : String) ≠ "" :=
  C4_chunks_nonempty.2 9 "ab cd" 1 3 ["a", "b c", "d"] (by decide) (by decide)
    (by decide) (by decide) "b c" (by decide)

/-- C5: whatever chunk list the splitter returns, joining the chunks with
single spaces preserves exactly the non-whitespace characters of the input,
in their original order — no non-whitespace character is lost or duplicated;
only whitespace runs at the break points change. -/
theorem C5_reconstruction (fuel : ℕ) (t : String) (c1 c2 : ℕ) (ps : List String)
    (h : splitTextIntelligently fuel t c1 c2 = some ps) :
    nonWsChars (joinPages ps).data = nonWsChars t.data := by
  rw [splitTextIntelligently] at h
  by_cases h0 : t = ""
  · rw [if_pos h0] at h
    obtain rfl : [""] = ps := by simpa using h
    subst h0
    rfl
  · rw [if_neg h0] at h
    by_cases hle : t.length ≤ c1
    · rw [if_pos hle] at h
      obtain rfl : [t] = ps := by simpa using h
      rfl
    · rw [if_neg hle] at h
      obtain ⟨ps', hps', rfl⟩ := Option.map_eq_some'.mp h
      have hdata : ∀ ls : List (List Char),
          ((ls.map (fun l => (⟨l⟩ : String))).map (·.data)) = ls := by
        intro ls
        induction ls with
        | nil => rfl
        | cons x xs ih => simp [ih]
      show nonWsChars (joinPagesData ((ps'.map (fun l => (⟨l⟩ : String))).map (·.data))) = _
      rw [hdata]
      exact splitGo_reconstruct fuel t.data c1 ps' hps'

theorem C5_witness :
    nonWsChars (joinPages ["aa b", "b cc"]).data = nonWsChars ("aa bb cc" : String).data :=
  C5_reconstruction 9 "aa bb cc" 4 4 ["aa b", "b cc"] (by decide)

/-- C6 (amended): strict break-point precedence. (1) If the last `"\n\n"`
at or before the capacity sits above half the capacity, the cut is at that
paragraph break — regardless of any sentence or word breaks. (2) If no
paragraph break qualifies but the last `". "`/`"! "`/`"? "` sits above 0.6
of the capacity, the cut is there. (3) If neither qualifies but the last
space passes the double-arithmetic test `w > cap * 0.7` — which at some
capacities admits a position at or marginally below the exact 70% mark —
the cut is there. (4) Otherwise the cut is exactly at the capacity. -/
theorem C6_precedence (t : List Char) (cap : ℕ) :
    (∀ p, occursAt ['\n', '\n'] t p = true → p ≤ cap →
      (∀ q ≤ cap, occursAt ['\n', '\n'] t q = true → q ≤ p) →
      cap < 2 * p → breakPointOf t cap = p + 2) ∧
    (∀ s, noParagraphBreak t cap →
      (occursAt ['.', ' '] t s = true ∨ occursAt ['!', ' '] t s = true ∨
        occursAt ['?', ' '] t s = true) → s ≤ cap →
      (∀ q ≤ cap, (occursAt ['.', ' '] t q = true ∨ occursAt ['!', ' '] t q = true ∨
        occursAt ['?', ' '] t q = true) → q ≤ s) →
      3 * cap < 5 * s → breakPointOf t cap = s + 2) ∧
    (∀ w, noParagraphBreak t cap → noSentenceBreak t cap →
      occursAt [' '] t w = true → w ≤ cap →
      (∀ q ≤ cap, occursAt [' '] t q = true → q ≤ w) →
      wordThresholdHit w cap = true → breakPointOf t cap = w + 1) ∧
    (noParagraphBreak t cap → noSentenceBreak t cap → noWordBreak t cap →
      breakPointOf t cap = cap) :=
  ⟨fun _ hocc hle hmax hpos => breakPointOf_paragraph hocc hle hmax hpos,
   fun _ hpar hocc hle hmax hpos => breakPointOf_sentence hpar hocc hle hmax hpos,
   fun _ hpar hsent hocc hle hmax hpos => breakPointOf_word hpar hsent hocc hle hmax hpos,
   fun hpar hsent hword => breakPointOf_hard hpar hsent hword⟩

/-- The spec's precedence scenario: a 120-character text with a paragraph
break at index 55 (55% of capacity 100) and a word break at index 90 (90%). -/
def exC6 : List Char :=
  List.replicate 55 'a' ++ ['\n', '\n'] ++ List.replicate 33 'b' ++ [' '] ++
    List.replicate 29 'c'

set_option maxRecDepth 4096 in
theorem C6_witness : breakPointOf exC6 100 = 57 :=
  (C6_precedence exC6 100).1 55 (by decide) (by decide) (by decide) (by decide)

/-- The claim's exact-arithmetic reading of the word-break stage: the last
space is accepted when its position exceeds the exact rational
`cap * 7/10`. Written from the claim's words, for comparison with the
double-arithmetic `breakPointWord` embedded from the source. -/
def breakPointWordExactC6 (t : List Char) (cap : ℕ) : ℕ :=
  match lastIndexOfLe [' '] t cap with
  | some w => if 7 * cap < 10 * w then w + 1 else cap
  | none => cap

/-- The claim's exact-arithmetic reading of the sentence stage. -/
def breakPointSentenceExactC6 (t : List Char) (cap : ℕ) : ℕ :=
  match sentenceBreakOf t cap with
  | some s => if 3 * cap < 5 * s then s + 2 else breakPointWordExactC6 t cap
  | none => breakPointWordExactC6 t cap

/-- The claim's exact-arithmetic reading of the whole break-point selection:
thresholds `cap * 0.5`, `cap * 0.6`, `cap * 0.7` taken as exact rationals. -/
def breakPointExactC6 (t : List Char) (cap : ℕ) : ℕ :=
  match lastIndexOfLe ['\n', '\n'] t cap with
  | some p => if cap < 2 * p then p + 2 else breakPointSentenceExactC6 t cap
  | none => breakPointSentenceExactC6 t cap

/-- A text whose only space sits at index 63, exactly 70% of capacity 90. -/
def exC6w : List Char :=
  List.replicate 63 'a' ++ [' '] ++ List.replicate 41 'b'

set_option maxRecDepth 4096 in
/-- C6 (counterexample): the thresholds are compared in IEEE-754 double
arithmetic, not exactly. At capacity 90 the double product `90 * 0.7` is
`62.99999999999999 < 63`, so the program accepts the word break at index
63 — exactly 70% of the capacity, not beyond it — and cuts at 64, where the
claim's exact-arithmetic rule would find no qualifying boundary and cut
exactly at the capacity, 90. -/
theorem C6_counterexample :
    breakPointOf exC6w 90 = 64 ∧ breakPointExactC6 exC6w 90 = 90 := by
  constructor
  · decide
  · decide

/-- C7 (counterexample): the capacity of the empty text is 1, not 0 (the
blank paragraph consumes a line slot and counts one character,
server.js:275-277); and a degenerate frame with width 0 but sound height
yields a positive capacity (every word overflows onto its own line, each
still counted), not 0. -/
theorem C7_counterexample :
    calculateTextCapacityWithRendering (fun _ => 0) "" 170 180 11 1.5 0 = 1 ∧
    calculateTextCapacityWithRendering (fun _ => 1) "ab cd" 0 100 11 1.5 0 = 6 :=
  ⟨by with_unfolding_all decide, by with_unfolding_all decide⟩

/-- C7 (amended): a degenerate (zero or negative) HEIGHT yields capacity 0
for every text; the empty text yields capacity 1 — not 0 — whenever at least
one line fits, and 0 only when no line fits. (A degenerate width alone does
not force capacity 0, see the counterexample.) -/
theorem C7_degenerate (cw : Char → ℚ) (widthMm fontSize lineHeight cs : ℚ)
    (hpos : 0 < fontSize * lineHeight) :
    (∀ heightMm, heightMm ≤ 0 → ∀ text,
      calculateTextCapacityWithRendering cw text widthMm heightMm fontSize
        lineHeight cs = 0) ∧
    (∀ heightMm, 1 ≤ maxLinesOf heightMm fontSize lineHeight →
      calculateTextCapacityWithRendering cw "" widthMm heightMm fontSize
        lineHeight cs = 1) ∧
    (∀ heightMm, maxLinesOf heightMm fontSize lineHeight ≤ 0 →
      calculateTextCapacityWithRendering cw "" widthMm heightMm fontSize
        lineHeight cs = 0) := by
  refine ⟨?_, ?_, ?_⟩
  · intro heightMm hh text
    exact capacity_degenerate_height cw text widthMm heightMm fontSize lineHeight cs
      hpos hh
  · intro heightMm hm
    exact capacity_empty_text cw widthMm heightMm fontSize lineHeight cs hm
  · intro heightMm hm
    rw [capacity_eq_sum_take]
    have h0 : (maxLinesOf heightMm fontSize lineHeight).toNat = 0 := by omega
    rw [h0]
    simp

theorem C7_witness :
    calculateTextCapacityWithRendering (fun _ => 1) "xy" 170 0 11 1.5 0 = 0 :=
  (C7_degenerate (fun _ => 1) 170 11 1.5 0 (by with_unfolding_all decide)).1 0
    (by with_unfolding_all decide) "xy"

/-- C8: with fixed typography (positive `fontSize * lineHeight`,
non-negative character spacing handled by the source's own guard) and fixed
non-negative font metrics, the rendered capacity is non-decreasing in the
frame height and non-decreasing in the frame width. -/
theorem C8_monotonicity (cw : Char → ℚ) (text : String)
    (fontSize lineHeight cs : ℚ) (hcw : ∀ c, 0 ≤ cw c)
    (hpos : 0 < fontSize * lineHeight) :
    (∀ widthMm h1 h2, h1 ≤ h2 →
      calculateTextCapacityWithRendering cw text widthMm h1 fontSize lineHeight cs ≤
        calculateTextCapacityWithRendering cw text widthMm h2 fontSize lineHeight cs) ∧
    (∀ heightMm w1 w2, w1 ≤ w2 →
      calculateTextCapacityWithRendering cw text w1 heightMm fontSize lineHeight cs ≤
        calculateTextCapacityWithRendering cw text w2 heightMm fontSize lineHeight cs) :=
  ⟨fun widthMm h1 h2 hle =>
    capacity_mono_in_height cw text widthMm fontSize lineHeight cs hpos hle,
   fun heightMm w1 w2 hle =>
    capacity_mono_in_width cw text heightMm fontSize lineHeight cs hcw hle⟩

theorem C8_witness :
    calculateTextCapacityWithRendering (fun _ => 1) "ab cd" 100 100 11 1.5 0 ≤
      calculateTextCapacityWithRendering (fun _ => 1) "ab cd" 100 180 11 1.5 0 :=
  (C8_monotonicity (fun _ => 1) "ab cd" 11 1.5 0
    (fun c => show (0 : ℚ) ≤ 1 by with_unfolding_all decide)
    (by with_unfolding_all decide)).1
    100 100 180 (by with_unfolding_all decide)

/-- C9 (counterexample): at a 100×100 mm frame with 11 pt font and 1.5 line
height, the code's fallback formula yields 897, while the claimed formula
(with the padding-adjusted height) yields 841 — the fallback does NOT
subtract the 2 mm padding. -/
theorem C9_counterexample :
    calculateTextCapacityEstimate 100 100 11 1.5 = 897 ∧
    capacityEstimateClaimC9 100 100 11 1.5 = 841 ∧ (897 : ℤ) ≠ 841 :=
  ⟨by with_unfolding_all decide, by with_unfolding_all decide, by decide⟩

/-- The fallback formula as amended: `usableHeightPt` is the RAW height in
points (no padding subtraction): `charsPerLine = floor(widthPt/(fontSize*0.42))`,
`linesPerPage = floor(heightPt*0.95 / lineHeightPt)`,
`capacity = floor(charsPerLine * linesPerPage * 0.92)`. -/
def capacityEstimateAmendedC9 (width height fontSize lineHeight : ℚ) : ℤ :=
  let charsPerLine := ⌊(width * MM) / (fontSize * (42 / 100))⌋
  let linesPerPage := ⌊(height * MM * (95 / 100)) / (fontSize * lineHeight)⌋
  ⌊(charsPerLine * linesPerPage : ℚ) * (92 / 100)⌋

/-- C9 (amended): the fallback capacity equals the formula WITHOUT the
padding adjustment, for all inputs. -/
theorem C9_fallback_formula (width height fontSize lineHeight : ℚ) :
    calculateTextCapacityEstimate width height fontSize lineHeight =
      capacityEstimateAmendedC9 width height fontSize lineHeight := rfl

theorem lastNotWs_jsTrim_bool (l : List Char) : lastNotWs (jsTrim l) = true := by
  unfold lastNotWs
  cases hl : (jsTrim l).getLast? with
  | none => rfl
  | some c =>
    have hne : jsTrim l ≠ [] := by
      intro h
      rw [h] at hl
      simp at hl
    have hc : (jsTrim l).getLast hne = c := by
      have := List.getLast?_eq_getLast (jsTrim l) hne
      rw [hl] at this
      exact (Option.some.injEq _ _ ▸ this).symm
    rw [← hc]
    simpa using lastNotWs_jsTrim l hne

/-- C10: `normalizeTextSpacing` output never contains two consecutive
whitespace characters and has no leading or trailing whitespace; on any such
text the paragraph branch of the splitter's break-point selection is
unreachable (`"\n\n"` cannot occur), and the splitter's remainder operation
(drop + trim) preserves the invariant, so the branch stays unreachable on
every iteration of the end-to-end render path. -/
theorem C10_normalized_no_paragraph :
    (∀ s : String, noDoubleWs (normalizeTextSpacing s).data ∧
      headNotWs (normalizeTextSpacing s).data = true ∧
      lastNotWs (normalizeTextSpacing s).data = true) ∧
    (∀ (t : List Char) (cap : ℕ), noDoubleWs t →
      breakPointOf t cap = breakPointSentence t cap ∧
      noDoubleWs (jsTrim (t.drop (breakPointOf t cap)))) := by
  constructor
  · intro s
    exact ⟨noDoubleWs_normalize s, headNotWs_jsTrim _, lastNotWs_jsTrim_bool _⟩
  · intro t cap h
    exact ⟨breakPointOf_no_paragraph h cap, noDoubleWs_remainder h _⟩

theorem C10_witness :
    breakPointOf ['a', ' ', 'b'] 2 = breakPointSentence ['a', ' ', 'b'] 2 ∧
    noDoubleWs (jsTrim ((['a', ' ', 'b']).drop (breakPointOf ['a', ' ', 'b'] 2))) :=
  C10_normalized_no_paragraph.2 ['a', ' ', 'b'] 2 (by decide)

end Pdfme
